import Mathlib

/-!
Verification development for the FleetAudit correlation and detection engine.

The repository's inspectable code under src/ is the Streamlit UI layer
(src/app.py): it loads the three normalized sources, invokes
FleetAuditor (logic/matcher.py), displays overlap warnings and renders
consolidated violations.  The engine itself (logic/matcher.py,
logic/enhanced_fuel_detector.py, ...) is not part of the inspected tree,
so the engine components below are modelled from the specification, while
the UI-side logic (detector availability, the violation display card) is
translated directly from src/app.py.

Conventions: timestamps are integers (minutes since an epoch), money and
confidence are rationals, a GPS location is a pair of rationals and the
great-circle distance function is an explicit parameter (its numeric
formula involves transcendental functions and is outside the shallow
embedding; every property below is independent of the concrete formula).
-/

namespace FleetAudit

/-- Severity levels of a violation (low / medium / high). -/
inductive Severity
  | low
  | medium
  | high
deriving DecidableEq, Repr

/-- Numeric rank of a severity, used to compare severities. -/
def Severity.rank : Severity → Nat
  | .low => 0
  | .medium => 1
  | .high => 2

/-- The larger of two severities. -/
def sevMax (a b : Severity) : Severity :=
  if b.rank ≤ a.rank then a else b

/-- Modelled from the spec: the RawViolation / ConsolidatedViolation record
(§3).  A raw violation produced by a single detector carries exactly one
detection method (a singleton `methods` list); a consolidated incident
carries the union of its members' methods.  `t` is the incident timestamp
in minutes, `conf` the confidence in [0,1], `loss` the estimated loss. -/
structure Violation where
  veh : String
  t : Int
  sev : Severity
  conf : ℚ
  loss : ℚ
  methods : List String
  descr : String
deriving DecidableEq, Repr

/-- Modelled from the spec: the Consolidator's fixed confidence boost per
additional corroborating detection method (§4.10; the exact constant is
left configurable by §9, a representative value is used). -/
def boost : ℚ := 1/10

/-- The member of a group with the maximal confidence (first such). -/
def bestOf (v : Violation) (vs : List Violation) : Violation :=
  vs.foldl (fun b x => if b.conf < x.conf then x else b) v

/-- Modelled from the spec: the Consolidator's merge rule (§4.10) applied
to one nonempty group `v :: vs` of violations judged to be the same
incident.  Severity is the maximum across members, estimated loss the
maximum (never the sum), the methods are the deduplicated union, and the
confidence is the maximal member confidence boosted by `boost` for each
corroborating detection method not already carried by that member, capped
at 1. -/
def mergeGroup (v : Violation) (vs : List Violation) : Violation :=
  let best := bestOf v vs
  let ms := ((v :: vs).flatMap Violation.methods).dedup
  let extra := (ms.filter (fun m => !(best.methods.contains m))).length
  { veh := v.veh
    t := v.t
    sev := vs.foldl (fun s x => sevMax s x.sev) v.sev
    conf := min 1 (best.conf + boost * extra)
    loss := vs.foldl (fun s x => max s x.loss) v.loss
    methods := ms
    descr := v.descr }

/-- Modelled from the spec: grouping by the dedup time window (§4.10).
The input list is sorted by timestamp; each group is anchored at its first
violation and collects the following violations whose timestamps lie
within `w` of the anchor.  Returns the groups as (anchor, rest) pairs. -/
def chunkWindow (w : Int) : List Violation → List (Violation × List Violation)
  | [] => []
  | v :: rest =>
      (v, rest.takeWhile (fun x => x.t ≤ v.t + w)) ::
        chunkWindow w (rest.dropWhile (fun x => x.t ≤ v.t + w))
termination_by l => l.length
decreasing_by
  simp only [List.length_cons]
  exact Nat.lt_succ_of_le (List.dropWhile_sublist _).length_le

/-- Timestamp order on violations, used to sort each vehicle's violations
before windowed grouping. -/
def vtle (a b : Violation) : Prop := a.t ≤ b.t

instance : DecidableRel vtle := fun a b => inferInstanceAs (Decidable (a.t ≤ b.t))

instance : IsTotal Violation vtle := ⟨fun a b => Int.le_total a.t b.t⟩

instance : IsTrans Violation vtle := ⟨fun _ _ _ h h' => Int.le_trans h h'⟩

/-- Sort a list of violations by timestamp (stable). -/
def sortT (vs : List Violation) : List Violation := List.insertionSort vtle vs

/-- Modelled from the spec: the Consolidator (§4.10), whose implementation
(logic/matcher.py) is not under src/.  One vehicle's violations are
sorted by timestamp, grouped by the dedup time window `w`, and each group
is merged by the merge rule; ungrouped violations pass through as
single-member incidents. -/
def consGroupsOf (w : Int) (vs : List Violation) (id : String) :
    List Violation :=
  (chunkWindow w (sortT (vs.filter (fun v => v.veh == id)))).map
    (fun g => mergeGroup g.1 g.2)

/-- Modelled from the spec: the Consolidator's full pass (§4.10): one
block of merged incidents per vehicle, in order of first appearance. -/
def consolidate (w : Int) (vs : List Violation) : List Violation :=
  ((vs.map Violation.veh).dedup).flatMap (consGroupsOf w vs)

/-- A geographic location: latitude and longitude. -/
structure Loc where
  lat : ℚ
  lon : ℚ
deriving DecidableEq, Repr

/-- Modelled from the spec: a normalized GPS ping (§3).  `speed` is
nullable. -/
structure GPSPing where
  veh : String
  t : Int
  loc : Loc
  speed : Option ℚ
deriving DecidableEq, Repr

/-- Modelled from the spec: a normalized fuel-card transaction (§3).
`gallons` and `price_per_gallon` are nullable; `total_amount` is always
present. -/
structure FuelTx where
  tx_id : String
  veh : String
  t : Int
  loc : Option Loc
  gallons : Option ℚ
  price_per_gallon : Option ℚ
  total_amount : ℚ
deriving DecidableEq, Repr

/-- Modelled from the spec: a normalized job record (§3). -/
structure JobRecord where
  job_id : String
  veh : String
  scheduled_time : Int
  loc : Option Loc
  completed : Bool
deriving DecidableEq, Repr

/-- Order on pings used by the Matcher's result: by timestamp, ties broken
by smallest great-circle distance to the target location (§4.2).  `d` is
the distance function and `tl` the target location. -/
def pingLe (d : Loc → Loc → ℚ) (tl : Loc) (a b : GPSPing) : Prop :=
  a.t < b.t ∨ (a.t = b.t ∧ d a.loc tl ≤ d b.loc tl)

/-- `pingLe` is decidable. -/
def pingLeDec (d : Loc → Loc → ℚ) (tl : Loc) : DecidableRel (pingLe d tl) :=
  fun a b => inferInstanceAs (Decidable (_ ∨ _))

/-- Modelled from the spec: the Spatial-Temporal Matcher's
`find_nearby` primitive (§4.2), whose implementation (logic/matcher.py)
is not under src/.  It searches only the given vehicle's pings; a ping
matches when its timestamp lies within
`[target_time - time_window, target_time + time_window]` and its
great-circle distance to the target location is at most
`distance_radius`; matches are returned ordered by timestamp with ties
broken by smallest distance.  The great-circle distance function `d` is a
parameter of the embedding. -/
def find_nearby (d : Loc → Loc → ℚ) (pings : List GPSPing) (vehicle_id : String)
    (target_time : Int) (target_location : Loc) (time_window : Int)
    (distance_radius : ℚ) : List GPSPing :=
  @List.insertionSort _ (pingLe d target_location) (pingLeDec d target_location)
    (pings.filter (fun p =>
      p.veh == vehicle_id
        && decide (target_time - time_window ≤ p.t)
        && decide (p.t ≤ target_time + time_window)
        && decide (d p.loc target_location ≤ distance_radius)))

/-- Modelled from the spec: the Ghost-Job Detector's violation record for
one flagged job (§4.6; representative confidence and loss constants). -/
def mkGhostViolation (j : JobRecord) : Violation :=
  { veh := j.veh
    t := j.scheduled_time
    sev := .high
    conf := 4/5
    loss := 150
    methods := ["ghost_job"]
    descr := j.job_id }

/-- Modelled from the spec: the Ghost-Job Detector's treatment of one job
(§4.6): a job marked completed with resolvable coordinates and no
matching ping from the Matcher yields one ghost_job violation; an
incomplete job, or one lacking resolvable coordinates, yields nothing. -/
def ghostEmit (d : Loc → Loc → ℚ) (pings : List GPSPing)
    (job_distance_threshold : ℚ) (job_time_buffer : Int) (j : JobRecord) :
    List Violation :=
  if j.completed then
    match j.loc with
    | none => []
    | some loc =>
        if find_nearby d pings j.veh j.scheduled_time loc job_time_buffer
            job_distance_threshold = [] then
          [mkGhostViolation j]
        else []
  else []

/-- Modelled from the spec: the Ghost-Job Detector (§4.6), whose
implementation is not under src/: the per-job treatment applied to every
job record. -/
def ghostJobViolations (d : Loc → Loc → ℚ) (pings : List GPSPing)
    (jobs : List JobRecord) (job_distance_threshold : ℚ)
    (job_time_buffer : Int) : List Violation :=
  jobs.flatMap (ghostEmit d pings job_distance_threshold job_time_buffer)

/-- Whether a ping counts as idling: its speed is known and below the
near-zero threshold (§4.7; a ping with unknown speed is not idling). -/
def isIdle (speed_floor : ℚ) (p : GPSPing) : Bool :=
  match p.speed with
  | some s => decide (s < speed_floor)
  | none => false

/-- Modelled from the spec: the maximal idle episodes of one vehicle's
ping sequence in timestamp order (§4.7) — maximal runs of consecutive
pings with speed below the near-zero threshold, returned as
(first ping, rest of run) pairs. -/
def idleRuns (speed_floor : ℚ) : List GPSPing → List (GPSPing × List GPSPing)
  | [] => []
  | p :: rest =>
      if isIdle speed_floor p then
        (p, rest.takeWhile (isIdle speed_floor)) ::
          idleRuns speed_floor (rest.dropWhile (isIdle speed_floor))
      else
        idleRuns speed_floor rest
termination_by l => l.length
decreasing_by
  · simp only [List.length_cons]
    exact Nat.lt_succ_of_le (List.dropWhile_sublist _).length_le
  · simp only [List.length_cons]
    exact Nat.lt_succ_self _


/-- Duration in minutes of an idle episode: last ping time minus first. -/
def runDuration (g : GPSPing × List GPSPing) : Int :=
  (g.2.getLastD g.1).t - g.1.t

/-- Modelled from the spec: the idle_abuse violation for one qualifying
episode (§4.7; loss proportional to idle duration with a representative
per-minute cost). -/
def mkIdleViolation (g : GPSPing × List GPSPing) : Violation :=
  { veh := g.1.veh
    t := g.1.t
    sev := .medium
    conf := 7/10
    loss := (runDuration g : ℚ) * (1/2)
    methods := ["idle_abuse"]
    descr := "idle episode" }

/-- Modelled from the spec: the Idle-Time Detector for one vehicle's ping
sequence (§4.7), whose implementation is not under src/.  Each maximal
idle episode spanning at least `idle_time_threshold` minutes is one
idle_abuse violation; shorter episodes produce nothing. -/
def idleViolations (idle_time_threshold : Int) (speed_floor : ℚ)
    (pings : List GPSPing) : List Violation :=
  ((idleRuns speed_floor pings).filter
      (fun g => decide (idle_time_threshold ≤ runDuration g))).map mkIdleViolation

/-- Modelled from the spec: the overfill violation of the Enhanced
Fuel-Fraud detector (§4.4); severity is high for extreme overfills and
medium otherwise (the spec requires at least medium), loss is the excess
volume priced at the transaction's price per gallon (fallback price 4). -/
def mkOverfillViolation (cap : ℚ) (tx : FuelTx) (g : ℚ) : Violation :=
  { veh := tx.veh
    t := tx.t
    sev := if 2 * cap < g then .high else .medium
    conf := 9/10
    loss := max 0 ((g - cap) * tx.price_per_gallon.getD 4)
    methods := ["enhanced_fuel_overfill"]
    descr := tx.tx_id }

/-- Modelled from the spec: the volume sub-check of the Enhanced
Fuel-Fraud detector (§4.4): gallons above 1.05 times the vehicle's tank
capacity is an overfill violation. -/
def overfillViolations (tank_capacity : String → ℚ) (txs : List FuelTx) :
    List Violation :=
  txs.flatMap (fun tx =>
    match tx.gallons with
    | none => []
    | some g =>
        if (105/100) * tank_capacity tx.veh < g then
          [mkOverfillViolation (tank_capacity tx.veh) tx g]
        else [])

/-- Modelled from the spec: the price-consistency sub-check of the
Enhanced Fuel-Fraud detector (§4.4): when gallons and price per gallon
are both present, a mismatch between their product and the total amount
beyond the tolerance is a mixed-purchase violation. -/
def mixedPurchaseViolations (tolerance : ℚ) (txs : List FuelTx) : List Violation :=
  txs.flatMap (fun tx =>
    match tx.gallons, tx.price_per_gallon with
    | some g, some ppg =>
        if tolerance < |g * ppg - tx.total_amount| then
          [{ veh := tx.veh, t := tx.t, sev := .medium, conf := 3/4,
             loss := max 0 (tx.total_amount - g * ppg),
             methods := ["enhanced_fuel_mixed_purchase"], descr := tx.tx_id }]
        else []
    | _, _ => [])

/-- Sum of a list of rationals. -/
def qsum (l : List ℚ) : ℚ := l.foldl (· + ·) 0

/-- Mean of a list of rationals (0 for the empty list). -/
def meanOf (l : List ℚ) : ℚ := qsum l / l.length

/-- Population variance of a list of rationals. -/
def varOf (l : List ℚ) : ℚ := qsum (l.map (fun x => (x - meanOf l) ^ 2)) / l.length

/-- The transaction amounts recorded for one vehicle. -/
def amountsOf (txs : List FuelTx) (id : String) : List ℚ :=
  (txs.filter (fun tx => tx.veh == id)).map FuelTx.total_amount

/-- Modelled from the spec: the behavioral-deviation sub-check of the
Enhanced Fuel-Fraud detector (§4.4): a transaction more than `k` standard
deviations from the vehicle's own history of amounts (phrased
squared, so it is exact in ℚ); vehicles with fewer than `min_history`
transactions are exempt. -/
def deviationViolations (k : ℚ) (min_history : Nat) (txs : List FuelTx) :
    List Violation :=
  txs.flatMap (fun tx =>
    let h := amountsOf txs tx.veh
    if min_history ≤ h.length ∧ k ^ 2 * varOf h < (tx.total_amount - meanOf h) ^ 2 then
      [{ veh := tx.veh, t := tx.t, sev := .medium, conf := 3/5,
         loss := max 0 (tx.total_amount - meanOf h),
         methods := ["enhanced_fuel_pattern_deviation"], descr := tx.tx_id }]
    else [])

/-- Timestamp order on fuel transactions. -/
def ftle (a b : FuelTx) : Prop := a.t ≤ b.t

instance : DecidableRel ftle := fun a b => inferInstanceAs (Decidable (a.t ≤ b.t))

/-- Modelled from the spec: the rapid-refill sub-check of the Enhanced
Fuel-Fraud detector (§4.4): two transactions of the same vehicle within a
short window, flagged at the second transaction. -/
def rapidRefillViolations (window : Int) (txs : List FuelTx) : List Violation :=
  ((txs.map FuelTx.veh).dedup).flatMap (fun id =>
    let mine := List.insertionSort ftle (txs.filter (fun tx => tx.veh == id))
    (mine.zip mine.tail).flatMap (fun pq =>
      if pq.2.t - pq.1.t ≤ window then
        [{ veh := id, t := pq.2.t, sev := .medium, conf := 7/10,
           loss := pq.2.total_amount,
           methods := ["enhanced_fuel_rapid_refill"], descr := pq.2.tx_id }]
      else []))

/-- Modelled from the spec: the Enhanced Fuel-Fraud Heuristics detector
(§4.4), whose implementation (logic/enhanced_fuel_detector.py) is not
under src/.  It runs on fuel data alone; each sub-check is independent
and a single transaction may trigger more than one raw violation. -/
def enhancedFuelViolations (tank_capacity : String → ℚ) (txs : List FuelTx) :
    List Violation :=
  overfillViolations tank_capacity txs
    ++ mixedPurchaseViolations 1 txs
    ++ deviationViolations 2 4 txs
    ++ rapidRefillViolations 60 txs

/-- Modelled from the spec: the Fuel-Theft Correlator (§4.3), whose
implementation is not under src/.  Each fuel transaction with coordinates
and no matching ping from the Matcher is a fuel_theft violation; a
transaction without coordinates degrades to a time-only check with
reduced confidence (§4.2). -/
def fuelTheftViolations (d : Loc → Loc → ℚ) (pings : List GPSPing)
    (txs : List FuelTx) (distance_threshold : ℚ) (time_threshold : Int) :
    List Violation :=
  txs.flatMap (fun tx =>
    match tx.loc with
    | some loc =>
        if find_nearby d pings tx.veh tx.t loc time_threshold distance_threshold
            = [] then
          [{ veh := tx.veh, t := tx.t, sev := .high, conf := 9/10,
             loss := tx.total_amount, methods := ["fuel_theft"],
             descr := tx.tx_id }]
        else []
    | none =>
        if pings.filter (fun p =>
            p.veh == tx.veh && decide (tx.t - time_threshold ≤ p.t)
              && decide (p.t ≤ tx.t + time_threshold)) = [] then
          [{ veh := tx.veh, t := tx.t, sev := .high, conf := 3/5,
             loss := tx.total_amount, methods := ["fuel_theft"],
             descr := tx.tx_id }]
        else [])

/-- Hour of day (0–23) of a timestamp in minutes. -/
def hourOf (t : Int) : Int := (t / 60) % 24

/-- Whether a ping is an after-hours movement candidate: moving above the
minimal speed with its hour outside the business-hours window (§4.8). -/
def isAfterHours (business_start business_end : Int) (min_speed : ℚ)
    (p : GPSPing) : Bool :=
  (match p.speed with
   | some s => decide (min_speed < s)
   | none => false)
    && (decide (hourOf p.t < business_start) || decide (business_end ≤ hourOf p.t))

/-- Modelled from the spec: grouping of consecutive after-hours pings of
one vehicle within a short gap into excursions (§4.8), anchored at the
first ping of each excursion. -/
def excursionsOf (gap : Int) : List GPSPing → List (GPSPing × List GPSPing)
  | [] => []
  | p :: rest =>
      (p, rest.takeWhile (fun x => x.t ≤ p.t + gap)) ::
        excursionsOf gap (rest.dropWhile (fun x => x.t ≤ p.t + gap))
termination_by l => l.length
decreasing_by
  simp only [List.length_cons]
  exact Nat.lt_succ_of_le (List.dropWhile_sublist _).length_le

/-- Modelled from the spec: the After-Hours Detector (§4.8), whose
implementation is not under src/: one after_hours violation per excursion
of after-hours movement, not one per ping. -/
def afterHoursViolations (business_start business_end : Int) (min_speed : ℚ)
    (gap : Int) (pings : List GPSPing) : List Violation :=
  ((pings.map GPSPing.veh).dedup).flatMap (fun id =>
    (excursionsOf gap
        ((pings.filter (fun p => p.veh == id)).filter
          (isAfterHours business_start business_end min_speed))).map
      (fun g =>
        { veh := id, t := g.1.t, sev := .medium, conf := 7/10,
          loss := 50, methods := ["after_hours"], descr := "after-hours excursion" }))

/-- Path distance travelled by a vehicle between two instants: the sum of
great-circle distances over consecutive pings of that vehicle within the
interval (§4.5). -/
def pathMiles (d : Loc → Loc → ℚ) (pings : List GPSPing) (id : String)
    (t1 t2 : Int) : ℚ :=
  let seg := pings.filter (fun p =>
    p.veh == id && decide (t1 ≤ p.t) && decide (p.t ≤ t2))
  (seg.zip seg.tail).foldl (fun s pq => s + d pq.1.loc pq.2.loc) 0

/-- Modelled from the spec: the MPG-Fraud Analyzer (§4.5), whose
implementation is not under src/.  Between consecutive fuel-ups of the
same vehicle it computes miles driven per gallon purchased and flags
implausibly high MPG, idle refills (fuel purchased with near-zero miles
driven), and a large deviation from the vehicle's own trailing average
(representative thresholds). -/
def mpgFraudViolations (d : Loc → Loc → ℚ) (pings : List GPSPing)
    (txs : List FuelTx) : List Violation :=
  ((txs.map FuelTx.veh).dedup).flatMap (fun id =>
    let mine := List.insertionSort ftle (txs.filter (fun tx => tx.veh == id))
    let pairs := mine.zip mine.tail
    let mpgs := pairs.filterMap (fun pq =>
      match pq.2.gallons with
      | some g =>
          if 0 < g then some (pathMiles d pings id pq.1.t pq.2.t / g) else none
      | none => none)
    (pairs.flatMap (fun pq =>
      match pq.2.gallons with
      | none => []
      | some g =>
          if ¬ 0 < g then []
          else
            let miles := pathMiles d pings id pq.1.t pq.2.t
            let mpg := miles / g
            (if 30 < mpg then
              [{ veh := id, t := pq.2.t, sev := .high, conf := 4/5,
                 loss := pq.2.total_amount, methods := ["mpg_fraud_high"],
                 descr := pq.2.tx_id }]
            else []) ++
            (if miles < 1 then
              [{ veh := id, t := pq.2.t, sev := .medium, conf := 7/10,
                 loss := pq.2.total_amount, methods := ["mpg_fraud_idle_refill"],
                 descr := pq.2.tx_id }]
            else []) ++
            (if 2 ≤ mpgs.length ∧ meanOf mpgs * 2 < mpg then
              [{ veh := id, t := pq.2.t, sev := .medium, conf := 3/5,
                 loss := pq.2.total_amount, methods := ["mpg_fraud_deviation"],
                 descr := pq.2.tx_id }]
            else []))))

/-- Modelled from the spec: the time-of-day unusualness check of the
Fuel-Pattern-Only Analyzer (§4.9): purchases in the small hours
(representative night window). -/
def oddHoursViolations (txs : List FuelTx) : List Violation :=
  txs.flatMap (fun tx =>
    if hourOf tx.t < 5 ∨ 22 ≤ hourOf tx.t then
      [{ veh := tx.veh, t := tx.t, sev := .low, conf := 2/5,
         loss := max 0 tx.total_amount, methods := ["fuel_pattern_odd_hours"],
         descr := tx.tx_id }]
    else [])

/-- Modelled from the spec: the Fuel-Pattern-Only Analyzer (§4.9), whose
implementation is not under src/: the fallback statistical analysis for
customers with fuel data only, reusing the behavioral-deviation and
rapid-refill checks plus a time-of-day unusualness check, at lower
default confidence than GPS-corroborated detectors. -/
def fuelPatternViolations (txs : List FuelTx) : List Violation :=
  (deviationViolations 2 4 txs).map (fun v =>
      { v with conf := v.conf * (1/2), methods := ["fuel_pattern_deviation"] })
    ++ (rapidRefillViolations 60 txs).map (fun v =>
      { v with conf := v.conf * (1/2), methods := ["fuel_pattern_rapid_refill"] })
    ++ oddHoursViolations txs

/-- The kinds of overlap warnings of the Temporal Coverage Analyzer. -/
inductive WarnType
  | no_overlap
  | limited_overlap
deriving DecidableEq, Repr

/-- The date range of one loaded source: first and last timestamp. -/
structure SourceRange where
  start : Int
  stop : Int
deriving DecidableEq, Repr

/-- Modelled from the spec: the Temporal Coverage Analyzer's
classification of one pair of sources (§4.1), whose implementation
(FleetAuditor.get_overlap_warnings in logic/matcher.py) is not under
src/: no_overlap when the intersection of the two [start, end] intervals
is empty, limited_overlap when the intersection length is below 20% of
the shorter source's span, otherwise no warning. -/
def overlapWarning (r1 r2 : SourceRange) : Option WarnType :=
  if min r1.stop r2.stop < max r1.start r2.start then some .no_overlap
  else if 5 * (min r1.stop r2.stop - max r1.start r2.start)
      < min (r1.stop - r1.start) (r2.stop - r2.start) then
    some .limited_overlap
  else none

/-- Modelled from the spec: the audited period's length used as a
projection divisor, treated as at least one day to guard sub-day periods
(§4.11). -/
def periodLenDays (p : ℚ) : ℚ := max 1 p

/-- Modelled from the spec: the Financial Impact Estimator's 7-day
projection (§4.11): the observed-period total scaled by 7 over the
audited period's day count. -/
def weeklyEstimate (total_loss : ℚ) (p : ℚ) : ℚ :=
  total_loss * 7 / periodLenDays p

/-- Modelled from the spec: the ~30.4-day monthly projection (§4.11). -/
def monthlyEstimate (total_loss : ℚ) (p : ℚ) : ℚ :=
  total_loss * (304/10) / periodLenDays p

/-- Modelled from the spec: the per-vehicle financial summary (§3). -/
structure VehicleSummary where
  total_loss : ℚ
  violation_count : Nat
  weekly_estimate : ℚ
  monthly_estimate : ℚ
  highest_single_incident : ℚ
  violation_methods : List String
deriving DecidableEq, Repr

/-- Modelled from the spec: the Financial Impact Estimator's per-vehicle
aggregation over consolidated violations (§4.11). -/
def vehicleSummary (p : ℚ) (incidents : List Violation) : VehicleSummary :=
  let losses := incidents.map Violation.loss
  { total_loss := losses.sum
    violation_count := incidents.length
    weekly_estimate := weeklyEstimate losses.sum p
    monthly_estimate := monthlyEstimate losses.sum p
    highest_single_incident := losses.foldl max 0
    violation_methods := (incidents.flatMap Violation.methods).dedup }

/-- Modelled from the spec: the fleet-wide financial summary (§3, §4.11). -/
structure FinancialSummary where
  vehicle_summaries : List (String × VehicleSummary)
  total_fleet_loss : ℚ
  weekly_fleet_estimate : ℚ
  vehicles_flagged : Nat
deriving DecidableEq, Repr

/-- Modelled from the spec: the Financial Impact Estimator (§4.11), whose
implementation is not under src/: pure aggregation of consolidated
violations per vehicle and fleet-wide, with weekly/monthly projections. -/
def financialSummary (p : ℚ) (incidents : List Violation) : FinancialSummary :=
  let ids := (incidents.map Violation.veh).dedup
  let perVehicle := ids.map (fun id =>
    (id, vehicleSummary p (incidents.filter (fun v => v.veh == id))))
  let total := (incidents.map Violation.loss).sum
  { vehicle_summaries := perVehicle
    total_fleet_loss := total
    weekly_fleet_estimate := weeklyEstimate total p
    vehicles_flagged := ids.length }

/-- Translated from src/app.py (main, the "Run Fleet Audit" tab): the
violation types the UI reports as detectable given which sources are
loaded.  Fuel-theft detection needs GPS and fuel, ghost-job detection
needs GPS and jobs, idle-time abuse and after-hours driving need GPS. -/
def availableViolations (gps fuel job : Bool) : List String :=
  (if gps && fuel then ["Fuel theft detection"] else [])
    ++ (if gps && job then ["Ghost job detection"] else [])
    ++ (if gps then ["Idle time abuse", "After-hours driving"] else [])

/-- Translated from src/app.py (main): the sources the UI lists as
optional further uploads. -/
def missingData (gps fuel job : Bool) : List String :=
  (if !gps then ["GPS logs"] else [])
    ++ (if !fuel then ["Fuel card data"] else [])
    ++ (if !job then ["Job logs"] else [])

/-- The enable flags for the optional detectors. -/
structure AuditFlags where
  enhancedFuel : Bool
  mpg : Bool
  fuelPattern : Bool
deriving DecidableEq, Repr

/-- Translated from src/app.py (main, "Advanced Options"): each optional
detector's checkbox exists only when its data requirement is met
(enhanced fuel needs fuel data, MPG analysis needs GPS and fuel, the
fuel-pattern analysis needs fuel data and no GPS); otherwise the flag is
False regardless of the checkbox. -/
def uiEnableFlags (gps fuel : Bool) (enhancedBox mpgBox patternBox : Bool) :
    AuditFlags :=
  { enhancedFuel := fuel && enhancedBox
    mpg := gps && fuel && mpgBox
    fuelPattern := fuel && !gps && patternBox }

/-- Modelled from the spec: the engine's configuration (§6). -/
structure Params where
  distance_threshold : ℚ
  time_threshold : Int
  idle_time_threshold : Int
  speed_floor : ℚ
  job_distance_threshold : ℚ
  job_time_buffer : Int
  business_start : Int
  business_end : Int
  min_speed : ℚ
  after_hours_gap : Int
  dedup_window : Int
  period_days : ℚ
  tank_capacity : String → ℚ

/-- Modelled from the spec: the audit result structure returned to the
caller (§6): raw violations keyed by detector type, the detectors that
could not run ("unavailable detection" notes, §7a), the consolidated
incidents and the financial summary. -/
structure AuditResult where
  fuel_theft : List Violation
  enhanced_fuel : List Violation
  mpg_fraud : List Violation
  ghost_job : List Violation
  idle_abuse : List Violation
  after_hours : List Violation
  fuel_pattern : List Violation
  unavailable : List String
  consolidated_violations : List Violation
  financial_summary : FinancialSummary

/-- Modelled from the spec: FleetAuditor.run_full_audit
(logic/matcher.py), which is not under src/ (src/app.py only calls it).
Each detector runs exactly when its required sources are present (and its
enable flag set); a detector whose required source is absent contributes
no violations and is recorded in the unavailable notes instead of
erroring (§7a).  Raw violations feed the Consolidator, whose output feeds
the Financial Impact Estimator (§2 control flow). -/
def runFullAudit (d : Loc → Loc → ℚ) (gps? : Option (List GPSPing))
    (fuel? : Option (List FuelTx)) (job? : Option (List JobRecord))
    (flags : AuditFlags) (ps : Params) : AuditResult :=
  let ft := match gps?, fuel? with
    | some g, some f =>
        fuelTheftViolations d g f ps.distance_threshold ps.time_threshold
    | _, _ => []
  let ef := match fuel? with
    | some f =>
        if flags.enhancedFuel then enhancedFuelViolations ps.tank_capacity f
        else []
    | none => []
  let mpg := match gps?, fuel? with
    | some g, some f => if flags.mpg then mpgFraudViolations d g f else []
    | _, _ => []
  let gj := match gps?, job? with
    | some g, some j =>
        ghostJobViolations d g j ps.job_distance_threshold ps.job_time_buffer
    | _, _ => []
  let idle := match gps? with
    | some g =>
        ((g.map GPSPing.veh).dedup).flatMap (fun id =>
          idleViolations ps.idle_time_threshold ps.speed_floor
            (g.filter (fun p => p.veh == id)))
    | none => []
  let ah := match gps? with
    | some g =>
        afterHoursViolations ps.business_start ps.business_end ps.min_speed
          ps.after_hours_gap g
    | none => []
  let fp := match fuel? with
    | some f => if flags.fuelPattern then fuelPatternViolations f else []
    | none => []
  let unav :=
    (if gps?.isNone || fuel?.isNone then ["fuel_theft"] else [])
      ++ (if fuel?.isNone || !flags.enhancedFuel then ["enhanced_fuel"] else [])
      ++ (if gps?.isNone || fuel?.isNone || !flags.mpg then ["mpg_fraud"] else [])
      ++ (if gps?.isNone || job?.isNone then ["ghost_job"] else [])
      ++ (if gps?.isNone then ["idle_abuse", "after_hours"] else [])
      ++ (if fuel?.isNone || !flags.fuelPattern then ["fuel_pattern"] else [])
  let raw := ft ++ ef ++ mpg ++ gj ++ idle ++ ah ++ fp
  let cons := consolidate ps.dedup_window raw
  { fuel_theft := ft
    enhanced_fuel := ef
    mpg_fraud := mpg
    ghost_job := gj
    idle_abuse := idle
    after_hours := ah
    fuel_pattern := fp
    unavailable := unav
    consolidated_violations := cons
    financial_summary := financialSummary ps.period_days cons }

/-- The date range spanned by a list of timestamps, `none` when empty. -/
def rangeOf (ts : List Int) : Option SourceRange :=
  match ts with
  | [] => none
  | t :: rest => some { start := rest.foldl min t, stop := rest.foldl max t }

/-- Modelled from the spec: the Temporal Coverage Analyzer over every
pair of loaded sources (§4.1), emitting a named warning per flagged
pair. -/
def pairWarnings (rs : List (String × SourceRange)) :
    List ((String × String) × WarnType) :=
  rs.tails.flatMap (fun l =>
    match l with
    | [] => []
    | r :: rest =>
        rest.filterMap (fun r2 =>
          (overlapWarning r.2 r2.2).map (fun w => ((r.1, r2.1), w))))

/-- The full output of one audit run: the coverage warnings and the audit
result. -/
structure AuditOutput where
  overlap_warnings : List ((String × String) × WarnType)
  result : AuditResult

/-- Modelled from the spec: the engine's control flow (§2): the Coverage
Analyzer emits non-fatal warnings over the loaded sources' date ranges,
then every applicable detector runs; the warnings are advisory only and
do not feed the detectors. -/
def auditPipeline (d : Loc → Loc → ℚ) (gps? : Option (List GPSPing))
    (fuel? : Option (List FuelTx)) (job? : Option (List JobRecord))
    (flags : AuditFlags) (ps : Params) : AuditOutput :=
  let srcs :=
    (match gps? with
     | some g => [("gps", g.map GPSPing.t)]
     | none => [])
      ++ (match fuel? with
          | some f => [("fuel", f.map FuelTx.t)]
          | none => [])
      ++ (match job? with
          | some j => [("job", j.map JobRecord.scheduled_time)]
          | none => [])
  let rs := srcs.filterMap (fun s => (rangeOf s.2).map (fun r => (s.1, r)))
  { overlap_warnings := pairWarnings rs
    result := runFullAudit d gps? fuel? job? flags ps }

/-- Translated from src/app.py: the dictionary shape of one consolidated
violation as consumed by `_display_violation_card`; each key the card
reads is an optional field. -/
structure DisplayViolation where
  vehicle_id : Option String
  timestamp : Option String
  detection_method : Option String
  location : Option String
  description : Option String
  severity : Option String
  confidence : Option ℚ
  total_estimated_loss : Option ℚ
deriving DecidableEq, Repr

/-- The rendered fields of one violation card. -/
structure Card where
  color : String
  title : String
  time : String
  place : String
  body : String
  confidence_pct : ℚ
  loss_shown : ℚ
deriving DecidableEq, Repr

/-- Translated from src/app.py `_display_violation_card`: severity and
confidence are read with defaults ('low' and 0), the card color follows
the severity, then the card template indexes `vehicle_id` and
`timestamp` directly — a missing one raises a KeyError — while
detection_method, location, description and `total_estimated_loss` are
read with defaults ('Unknown', 'Unknown', a placeholder, and 0). -/
def displayViolationCard (v : DisplayViolation) : Except String Card :=
  let severity := v.severity.getD "low"
  let confidence := v.confidence.getD 0 * 100
  let color :=
    if severity == "high" then "#ff4444"
    else if severity == "medium" then "#ff8800"
    else "#ffaa00"
  match v.vehicle_id with
  | none => .error "KeyError: vehicle_id"
  | some vid =>
      match v.timestamp with
      | none => .error "KeyError: timestamp"
      | some ts =>
          .ok
            { color := color
              title := vid ++ " - " ++ v.detection_method.getD "Unknown"
              time := ts
              place := v.location.getD "Unknown"
              body := v.description.getD "No description available"
              confidence_pct := confidence
              loss_shown := v.total_estimated_loss.getD 0 }

/-- Text label of a severity, as carried in the result dictionaries. -/
def Severity.label : Severity → String
  | .low => "low"
  | .medium => "medium"
  | .high => "high"

/-- Modelled from the spec: the dictionary the engine hands the UI for
one consolidated violation (§6 output contract): vehicle_id and
timestamp are always populated, the displayed loss is carried under
total_estimated_loss. -/
def toDisplay (v : Violation) : DisplayViolation :=
  { vehicle_id := some v.veh
    timestamp := some (toString v.t)
    detection_method := some (String.intercalate ", " v.methods)
    location := none
    description := some v.descr
    severity := some v.sev.label
    confidence := some v.conf
    total_estimated_loss := some v.loss }

/-! ## Helper lemmas -/

/-- Scaling every element of a list of rationals scales its sum. -/
theorem sum_map_mul (c : ℚ) (l : List ℚ) :
    (l.map (fun x => c * x)).sum = c * l.sum := by
  induction l with
  | nil => simp
  | cons a t ih => simp [ih, mul_add]

/-! ## Claims -/

/-- C8: for every fixed audited-period length, the Financial Impact
Estimator's weekly estimate is linear in the losses — scaling every
incident's loss by `c` scales the fleet weekly estimate by `c`, and the
projection's divisor is treated as at least one day, so it is never
zero. -/
theorem claim_C8_financial_linear (c p : ℚ) (incidents : List Violation) :
    (financialSummary p
          (incidents.map (fun v => { v with loss := c * v.loss }))).weekly_fleet_estimate
        = c * (financialSummary p incidents).weekly_fleet_estimate
      ∧ (∀ total : ℚ, weeklyEstimate (c * total) p = c * weeklyEstimate total p)
      ∧ (∀ total : ℚ, monthlyEstimate (c * total) p = c * monthlyEstimate total p)
      ∧ (1 : ℚ) ≤ periodLenDays p ∧ periodLenDays p ≠ 0 := by
  have hdiv : (1 : ℚ) ≤ periodLenDays p := le_max_left 1 p
  have hne : periodLenDays p ≠ 0 := by
    intro h
    rw [h] at hdiv
    norm_num at hdiv
  refine ⟨?_, ?_, ?_, hdiv, hne⟩
  · show weeklyEstimate ((incidents.map _).map Violation.loss).sum p
        = c * weeklyEstimate (incidents.map Violation.loss).sum p
    rw [List.map_map]
    have hm : (incidents.map (Violation.loss ∘ fun v => { v with loss := c * v.loss }))
        = (incidents.map Violation.loss).map (fun x => c * x) := by
      rw [List.map_map]
      rfl
    rw [hm, sum_map_mul]
    unfold weeklyEstimate
    ring
  · intro total
    unfold weeklyEstimate
    ring
  · intro total
    unfold monthlyEstimate
    ring

/-- C3: the Temporal Coverage Analyzer warns no_overlap exactly when the
two sources' [start, end] intervals have empty intersection,
limited_overlap exactly when the intersection is nonempty but shorter
than 20% of the shorter source's span, and stays silent otherwise; the
warnings never feed the detectors, whose output in the pipeline equals a
plain run of the audit. -/
theorem claim_C3_coverage_warnings (r1 r2 : SourceRange) :
    (overlapWarning r1 r2 = some WarnType.no_overlap
        ↔ Set.Icc r1.start r1.stop ∩ Set.Icc r2.start r2.stop = ∅)
      ∧ (overlapWarning r1 r2 = some WarnType.limited_overlap
        ↔ (Set.Icc r1.start r1.stop ∩ Set.Icc r2.start r2.stop).Nonempty
            ∧ 5 * (min r1.stop r2.stop - max r1.start r2.start)
              < min (r1.stop - r1.start) (r2.stop - r2.start))
      ∧ (overlapWarning r1 r2 = none
        ↔ (Set.Icc r1.start r1.stop ∩ Set.Icc r2.start r2.stop).Nonempty
            ∧ ¬ 5 * (min r1.stop r2.stop - max r1.start r2.start)
              < min (r1.stop - r1.start) (r2.stop - r2.start))
      ∧ (∀ (d : Loc → Loc → ℚ) (gps? : Option (List GPSPing))
            (fuel? : Option (List FuelTx)) (job? : Option (List JobRecord))
            (flags : AuditFlags) (ps : Params),
          (auditPipeline d gps? fuel? job? flags ps).result
            = runFullAudit d gps? fuel? job? flags ps) := by
  have hicc : Set.Icc r1.start r1.stop ∩ Set.Icc r2.start r2.stop
      = Set.Icc (max r1.start r2.start) (min r1.stop r2.stop) := Set.Icc_inter_Icc
  refine ⟨?_, ?_, ?_, fun d gps? fuel? job? flags ps => rfl⟩
  · rw [hicc, Set.Icc_eq_empty_iff]
    unfold overlapWarning
    split_ifs with h1 h2 <;> simp <;> omega
  · rw [hicc, Set.nonempty_Icc]
    unfold overlapWarning
    split_ifs with h1 h2 <;> simp <;> omega
  · rw [hicc, Set.nonempty_Icc]
    unfold overlapWarning
    split_ifs with h1 h2 <;> simp <;> omega

/-- C2: with only fuel data loaded (GPS and jobs absent, optional
detectors enabled by their UI checkboxes), the source-requiring detectors
ghost_job, idle_abuse, after_hours, mpg_fraud (and fuel_theft) each
produce zero violations and appear in the unavailable notes, while the
enhanced-fuel and fuel-pattern detectors run on the fuel data; the UI
offers no GPS-dependent detection and lists the absent sources as
optional uploads. -/
theorem claim_C2_missing_source_skips (d : Loc → Loc → ℚ) (txs : List FuelTx)
    (ps : Params) :
    (runFullAudit d none (some txs) none (uiEnableFlags false true true true true)
          ps).ghost_job = []
      ∧ (runFullAudit d none (some txs) none (uiEnableFlags false true true true true)
          ps).idle_abuse = []
      ∧ (runFullAudit d none (some txs) none (uiEnableFlags false true true true true)
          ps).after_hours = []
      ∧ (runFullAudit d none (some txs) none (uiEnableFlags false true true true true)
          ps).mpg_fraud = []
      ∧ (runFullAudit d none (some txs) none (uiEnableFlags false true true true true)
          ps).fuel_theft = []
      ∧ (runFullAudit d none (some txs) none (uiEnableFlags false true true true true)
          ps).unavailable
        = ["fuel_theft", "mpg_fraud", "ghost_job", "idle_abuse", "after_hours"]
      ∧ (runFullAudit d none (some txs) none (uiEnableFlags false true true true true)
          ps).enhanced_fuel = enhancedFuelViolations ps.tank_capacity txs
      ∧ (runFullAudit d none (some txs) none (uiEnableFlags false true true true true)
          ps).fuel_pattern = fuelPatternViolations txs
      ∧ availableViolations false true false = []
      ∧ missingData false true false = ["GPS logs", "Job logs"] :=
  ⟨rfl, rfl, rfl, rfl, rfl, rfl, rfl, rfl, rfl, rfl⟩

/-- C10: the violation card succeeds exactly when the dictionary carries
both vehicle_id and timestamp (it indexes them directly, so an absent one
raises), the displayed loss is read from total_estimated_loss with
default 0, and every consolidated violation handed to the UI carries both
required keys. -/
theorem claim_C10_display_card_keys (dv : DisplayViolation) :
    ((∃ c, displayViolationCard dv = Except.ok c)
        ↔ dv.vehicle_id.isSome ∧ dv.timestamp.isSome)
      ∧ (∀ c, displayViolationCard dv = Except.ok c
          → c.loss_shown = dv.total_estimated_loss.getD 0)
      ∧ (∀ v : Violation, (toDisplay v).vehicle_id.isSome
          ∧ (toDisplay v).timestamp.isSome
          ∧ ∃ c, displayViolationCard (toDisplay v) = Except.ok c) := by
  refine ⟨?_, ?_, ?_⟩
  · cases hv : dv.vehicle_id with
    | none => simp [displayViolationCard, hv]
    | some vid =>
        cases ht : dv.timestamp with
        | none => simp [displayViolationCard, hv, ht]
        | some ts => simp [displayViolationCard, hv, ht]
  · intro c hc
    cases hv : dv.vehicle_id with
    | none => simp [displayViolationCard, hv] at hc
    | some vid =>
        cases ht : dv.timestamp with
        | none => simp [displayViolationCard, hv, ht] at hc
        | some ts =>
            simp only [displayViolationCard, hv, ht] at hc
            cases hc
            rfl
  · intro v
    exact ⟨rfl, rfl, ⟨_, rfl⟩⟩

/-- C10 witness: a concrete dictionary with both keys and a loss of 5
renders, and shows 5. -/
theorem claim_C10_witness :
    (∃ c, displayViolationCard
        { vehicle_id := some "V1", timestamp := some "t0",
          detection_method := none, location := none, description := none,
          severity := none, confidence := none,
          total_estimated_loss := some 5 } = Except.ok c)
      ∧ (∀ c, displayViolationCard
          { vehicle_id := some "V1", timestamp := some "t0",
            detection_method := none, location := none, description := none,
            severity := none, confidence := none,
            total_estimated_loss := some 5 } = Except.ok c
        → c.loss_shown = 5) := by
  have h := claim_C10_display_card_keys
    { vehicle_id := some "V1", timestamp := some "t0",
      detection_method := none, location := none, description := none,
      severity := none, confidence := none, total_estimated_loss := some 5 }
  exact ⟨h.1.mpr ⟨rfl, rfl⟩, fun c hc => h.2.1 c hc⟩

/-- The matcher's result order is total. -/
theorem pingLe_total (d : Loc → Loc → ℚ) (tl : Loc) :
    ∀ a b : GPSPing, pingLe d tl a b ∨ pingLe d tl b a := by
  intro a b
  rcases lt_trichotomy a.t b.t with h | h | h
  · exact Or.inl (Or.inl h)
  · rcases le_total (d a.loc tl) (d b.loc tl) with hd | hd
    · exact Or.inl (Or.inr ⟨h, hd⟩)
    · exact Or.inr (Or.inr ⟨h.symm, hd⟩)
  · exact Or.inr (Or.inl h)

/-- The matcher's result order is transitive. -/
theorem pingLe_trans (d : Loc → Loc → ℚ) (tl : Loc) :
    ∀ a b c : GPSPing, pingLe d tl a b → pingLe d tl b c → pingLe d tl a c := by
  intro a b c h1 h2
  rcases h1 with h1 | ⟨e1, d1⟩ <;> rcases h2 with h2 | ⟨e2, d2⟩
  · exact Or.inl (h1.trans h2)
  · exact Or.inl (by rw [← e2]; exact h1)
  · exact Or.inl (by rw [e1]; exact h2)
  · exact Or.inr ⟨e1.trans e2, le_trans d1 d2⟩

/-- C4: a ping is among find_nearby's matches exactly when it is one of
the given vehicle's pings, its timestamp lies within the window around
the target time, and its distance to the target location is within the
radius; the matches are ordered by timestamp with ties broken by smallest
distance. -/
theorem claim_C4_find_nearby (d : Loc → Loc → ℚ) (pings : List GPSPing)
    (vid : String) (tt : Int) (tl : Loc) (tw : Int) (dr : ℚ) :
    (∀ p, p ∈ find_nearby d pings vid tt tl tw dr
        ↔ p ∈ pings ∧ p.veh = vid ∧ tt - tw ≤ p.t ∧ p.t ≤ tt + tw
            ∧ d p.loc tl ≤ dr)
      ∧ (find_nearby d pings vid tt tl tw dr).Sorted (pingLe d tl) := by
  letI : DecidableRel (pingLe d tl) := pingLeDec d tl
  haveI : IsTotal GPSPing (pingLe d tl) := ⟨pingLe_total d tl⟩
  haveI : IsTrans GPSPing (pingLe d tl) := ⟨pingLe_trans d tl⟩
  constructor
  · intro p
    unfold find_nearby
    rw [(List.perm_insertionSort (pingLe d tl) _).mem_iff, List.mem_filter]
    simp only [Bool.and_eq_true, beq_iff_eq, decide_eq_true_eq, and_assoc]
  · unfold find_nearby
    exact List.sorted_insertionSort (pingLe d tl) _

/-- C6: every fuel transaction whose gallons exceed 1.05 times the
vehicle's tank capacity yields an overfill violation of the Enhanced
Fuel-Fraud detector whose severity is medium or high. -/
theorem claim_C6_overfill (cap : String → ℚ) (txs : List FuelTx) (tx : FuelTx)
    (g : ℚ) (htx : tx ∈ txs) (hg : tx.gallons = some g)
    (hover : (105/100) * cap tx.veh < g) :
    ∃ v ∈ enhancedFuelViolations cap txs,
      v.descr = tx.tx_id ∧ v.methods = ["enhanced_fuel_overfill"]
        ∧ (v.sev = Severity.medium ∨ v.sev = Severity.high) := by
  refine ⟨mkOverfillViolation (cap tx.veh) tx g, ?_, rfl, rfl, ?_⟩
  · unfold enhancedFuelViolations
    apply List.mem_append_left
    apply List.mem_append_left
    apply List.mem_append_left
    unfold overfillViolations
    rw [List.mem_flatMap]
    refine ⟨tx, htx, ?_⟩
    rw [hg]
    simp [hover]
  · show (if 2 * cap tx.veh < g then Severity.high else Severity.medium)
        = Severity.medium
      ∨ (if 2 * cap tx.veh < g then Severity.high else Severity.medium)
        = Severity.high
    split_ifs with h
    · exact Or.inr rfl
    · exact Or.inl rfl

/-- C6 witness: a 60-gallon purchase on a 35-gallon tank is flagged as an
overfill of severity at least medium. -/
theorem claim_C6_witness :
    ∃ v ∈ enhancedFuelViolations (fun _ => 35)
        [{ tx_id := "T1", veh := "V42", t := 840, loc := none,
           gallons := some 60, price_per_gallon := some 4,
           total_amount := 240 }],
      v.descr = "T1" ∧ v.methods = ["enhanced_fuel_overfill"]
        ∧ (v.sev = Severity.medium ∨ v.sev = Severity.high) :=
  claim_C6_overfill (fun _ => 35) _
    { tx_id := "T1", veh := "V42", t := 840, loc := none,
      gallons := some 60, price_per_gallon := some 4, total_amount := 240 }
    60 (by simp) rfl (by norm_num)

/-- Whether the Ghost-Job Detector flags a job: completed, with
coordinates, and with no matching ping. -/
def ghostFlag (d : Loc → Loc → ℚ) (pings : List GPSPing)
    (job_distance_threshold : ℚ) (job_time_buffer : Int) (j : JobRecord) :
    Bool :=
  j.completed
    && (match j.loc with
        | some loc =>
            decide (find_nearby d pings j.veh j.scheduled_time loc
              job_time_buffer job_distance_threshold = [])
        | none => false)

/-- The per-job emission is one violation when the job is flagged and
nothing otherwise. -/
theorem ghostEmit_eq (d : Loc → Loc → ℚ) (pings : List GPSPing) (jdt : ℚ)
    (jtb : Int) (j : JobRecord) :
    ghostEmit d pings jdt jtb j
      = if ghostFlag d pings jdt jtb j then [mkGhostViolation j] else [] := by
  unfold ghostEmit ghostFlag
  cases hc : j.completed with
  | false => simp
  | true =>
      cases hl : j.loc with
      | none => simp
      | some loc =>
          by_cases hm : find_nearby d pings j.veh j.scheduled_time loc jtb jdt = []
          · simp [hm]
          · simp [hm]

/-- The Ghost-Job Detector emits exactly one violation per flagged job,
in order. -/
theorem ghostJobViolations_eq (d : Loc → Loc → ℚ) (pings : List GPSPing)
    (jdt : ℚ) (jtb : Int) :
    ∀ jobs : List JobRecord,
      ghostJobViolations d pings jobs jdt jtb
        = ((jobs.filter (ghostFlag d pings jdt jtb)).map mkGhostViolation) := by
  intro jobs
  induction jobs with
  | nil => rfl
  | cons a rest ih =>
      have expand : ghostJobViolations d pings (a :: rest) jdt jtb
          = ghostEmit d pings jdt jtb a ++ ghostJobViolations d pings rest jdt jtb :=
        rfl
      rw [expand, ih, ghostEmit_eq, List.filter_cons]
      by_cases hf : ghostFlag d pings jdt jtb a = true
      · simp [hf]
      · simp [hf]

/-- C5: with distinct job ids, a completed job with resolvable
coordinates and no matching ping within the configured radius/buffer gets
exactly one ghost_job violation; a completed job with a matching ping
gets none; and a completed job without resolvable coordinates is skipped,
not flagged. -/
theorem claim_C5_ghost_job (d : Loc → Loc → ℚ) (pings : List GPSPing)
    (jobs : List JobRecord) (jdt : ℚ) (jtb : Int) (j : JobRecord)
    (hnd : (jobs.map JobRecord.job_id).Nodup) (hj : j ∈ jobs)
    (hc : j.completed = true) :
    (∀ loc, j.loc = some loc →
        find_nearby d pings j.veh j.scheduled_time loc jtb jdt = [] →
        (ghostJobViolations d pings jobs jdt jtb).countP
          (fun v => v.descr == j.job_id) = 1)
      ∧ (∀ loc, j.loc = some loc →
        find_nearby d pings j.veh j.scheduled_time loc jtb jdt ≠ [] →
        (ghostJobViolations d pings jobs jdt jtb).countP
          (fun v => v.descr == j.job_id) = 0)
      ∧ (j.loc = none →
        (ghostJobViolations d pings jobs jdt jtb).countP
          (fun v => v.descr == j.job_id) = 0) := by
  have hinj := List.inj_on_of_nodup_map hnd
  have hcount : ∀ jobs' : List JobRecord,
      (ghostJobViolations d pings jobs' jdt jtb).countP
          (fun v => v.descr == j.job_id)
        = ((jobs'.filter (ghostFlag d pings jdt jtb)).map
            JobRecord.job_id).count j.job_id := by
    intro jobs'
    rw [ghostJobViolations_eq, List.countP_map, List.count, List.countP_map]
    rfl
  have hsub : ((jobs.filter (ghostFlag d pings jdt jtb)).map
      JobRecord.job_id).Sublist (jobs.map JobRecord.job_id) :=
    (List.filter_sublist jobs).map JobRecord.job_id
  have hndf := hsub.nodup hnd
  have hflag_count : ghostFlag d pings jdt jtb j = true →
      ((jobs.filter (ghostFlag d pings jdt jtb)).map
        JobRecord.job_id).count j.job_id = 1 := by
    intro hf
    exact List.count_eq_one_of_mem hndf
      (List.mem_map_of_mem _ (List.mem_filter.2 ⟨hj, hf⟩))
  have hnoflag_count : ghostFlag d pings jdt jtb j = false →
      ((jobs.filter (ghostFlag d pings jdt jtb)).map
        JobRecord.job_id).count j.job_id = 0 := by
    intro hf
    rw [List.count_eq_zero]
    intro hmem
    obtain ⟨j2, hj2, hid⟩ := List.mem_map.1 hmem
    obtain ⟨hj2m, hj2f⟩ := List.mem_filter.1 hj2
    have hjj : j2 = j := hinj hj2m hj hid
    rw [hjj] at hj2f
    rw [hj2f] at hf
    simp at hf
  refine ⟨?_, ?_, ?_⟩
  · intro loc hl hm
    rw [hcount]
    apply hflag_count
    unfold ghostFlag
    rw [hc, hl]
    simp [hm]
  · intro loc hl hm
    rw [hcount]
    apply hnoflag_count
    unfold ghostFlag
    rw [hc, hl]
    simp [hm]
  · intro hl
    rw [hcount]
    apply hnoflag_count
    unfold ghostFlag
    rw [hc, hl]
    simp

/-- C5 witness: with no GPS pings at all, a completed job with
coordinates is flagged exactly once, and an incomplete-free second job
list shows the skip of a coordinate-less job. -/
theorem claim_C5_witness :
    ((ghostJobViolations (fun _ _ => 0) []
        [{ job_id := "J1", veh := "V1", scheduled_time := 600,
           loc := some { lat := 1, lon := 2 }, completed := true }]
        1 30).countP (fun v => v.descr == "J1") = 1)
      ∧ ((ghostJobViolations (fun _ _ => 0) []
        [{ job_id := "J2", veh := "V1", scheduled_time := 600,
           loc := none, completed := true }]
        1 30).countP (fun v => v.descr == "J2") = 0) := by
  constructor
  · exact (claim_C5_ghost_job (fun _ _ => 0) []
        [{ job_id := "J1", veh := "V1", scheduled_time := 600,
           loc := some { lat := 1, lon := 2 }, completed := true }]
        1 30
        { job_id := "J1", veh := "V1", scheduled_time := 600,
          loc := some { lat := 1, lon := 2 }, completed := true }
        (by simp) (by simp) rfl).1 { lat := 1, lon := 2 } rfl rfl
  · exact (claim_C5_ghost_job (fun _ _ => 0) []
        [{ job_id := "J2", veh := "V1", scheduled_time := 600,
           loc := none, completed := true }]
        1 30
        { job_id := "J2", veh := "V1", scheduled_time := 600,
          loc := none, completed := true }
        (by simp) (by simp) rfl).2.2 rfl

/-- takeWhile keeps a list all of whose elements pass. -/
theorem takeWhile_of_all {α : Type} (p : α → Bool) :
    ∀ l : List α, (∀ x ∈ l, p x = true) → l.takeWhile p = l := by
  intro l
  induction l with
  | nil => intro _; rfl
  | cons a t ih =>
      intro h
      rw [List.takeWhile_cons, h a (by simp), ih (fun x hx => h x (by simp [hx]))]
      simp

/-- dropWhile empties a list all of whose elements pass. -/
theorem dropWhile_of_all {α : Type} (p : α → Bool) :
    ∀ l : List α, (∀ x ∈ l, p x = true) → l.dropWhile p = [] := by
  intro l
  induction l with
  | nil => intro _; rfl
  | cons a t ih =>
      intro h
      rw [List.dropWhile_cons, h a (by simp)]
      exact ih (fun x hx => h x (by simp [hx]))

/-- takeWhile passes over a prefix all of whose elements pass. -/
theorem takeWhile_append_of_all {α : Type} (p : α → Bool) (l₂ : List α) :
    ∀ l₁ : List α, (∀ x ∈ l₁, p x = true) →
      (l₁ ++ l₂).takeWhile p = l₁ ++ l₂.takeWhile p := by
  intro l₁
  induction l₁ with
  | nil => intro _; rfl
  | cons a t ih =>
      intro h
      rw [List.cons_append, List.takeWhile_cons, h a (by simp), List.cons_append]
      rw [ih (fun x hx => h x (by simp [hx]))]
      simp

/-- dropWhile skips a prefix all of whose elements pass. -/
theorem dropWhile_append_of_all {α : Type} (p : α → Bool) (l₂ : List α) :
    ∀ l₁ : List α, (∀ x ∈ l₁, p x = true) →
      (l₁ ++ l₂).dropWhile p = l₂.dropWhile p := by
  intro l₁
  induction l₁ with
  | nil => intro _; rfl
  | cons a t ih =>
      intro h
      rw [List.cons_append, List.dropWhile_cons, h a (by simp)]
      exact ih (fun x hx => h x (by simp [hx]))

/-- Two idle stretches separated by one movement ping form exactly two
maximal idle episodes — they are never merged. -/
theorem idleRuns_split (sf : ℚ) (a : List GPSPing) (m : GPSPing)
    (b : List GPSPing) (ha : ∀ x ∈ a, isIdle sf x = true)
    (hm : isIdle sf m = false) (hb : ∀ x ∈ b, isIdle sf x = true)
    (hna : a ≠ []) (hnb : b ≠ []) :
    idleRuns sf (a ++ m :: b) = [(a.head hna, a.tail), (b.head hnb, b.tail)] := by
  cases a with
  | nil => exact absurd rfl hna
  | cons ah ta =>
      cases b with
      | nil => exact absurd rfl hnb
      | cons bh tb =>
          have hah : isIdle sf ah = true := ha ah (by simp)
          have hta : ∀ x ∈ ta, isIdle sf x = true :=
            fun x hx => ha x (by simp [hx])
          have hbh : isIdle sf bh = true := hb bh (by simp)
          have htb : ∀ x ∈ tb, isIdle sf x = true :=
            fun x hx => hb x (by simp [hx])
          rw [List.cons_append, idleRuns, if_pos hah]
          rw [takeWhile_append_of_all _ _ _ hta, List.takeWhile_cons, hm]
          rw [dropWhile_append_of_all _ _ _ hta, List.dropWhile_cons, hm]
          simp only [Bool.false_eq_true, ite_false, List.append_nil]
          rw [idleRuns, if_neg (by rw [hm]; exact Bool.false_ne_true)]
          rw [idleRuns, if_pos hbh]
          rw [takeWhile_of_all _ _ htb, dropWhile_of_all _ _ htb]
          rw [idleRuns]
          rfl

/-- The anchors of the idle episodes form a subsequence of the scanned
pings. -/
theorem idleRuns_anchors_sublist (sf : ℚ) (l : List GPSPing) :
    ((idleRuns sf l).map (fun g => g.1)).Sublist l := by
  have H : ∀ (n : Nat) (l : List GPSPing), l.length ≤ n →
      ((idleRuns sf l).map (fun g => g.1)).Sublist l := by
    intro n
    induction n with
    | zero =>
        intro l hl
        rw [List.length_eq_zero.1 (Nat.le_zero.1 hl)]
        rw [idleRuns]
        simp
    | succ n ih =>
        intro l hl
        cases l with
        | nil => rw [idleRuns]; simp
        | cons p rest =>
            simp only [List.length_cons, Nat.succ_le_succ_iff] at hl
            rw [idleRuns]
            by_cases hp : isIdle sf p = true
            · rw [if_pos hp, List.map_cons]
              have h1 := ih (rest.dropWhile (isIdle sf))
                (le_trans (List.dropWhile_sublist _).length_le hl)
              exact (h1.trans (rest.dropWhile_sublist _)).cons₂ p
            · rw [if_neg hp]
              exact (ih rest hl).trans (List.sublist_cons_self p rest)
  exact H l.length l le_rfl

/-- Counting, among the kept elements of a filtered list, those sharing a
key with a given element: with distinct keys the answer is 1 when the
element is kept and 0 otherwise. -/
theorem countP_key_filter {α β : Type} [DecidableEq β] (f : α → β)
    (q : α → Bool) :
    ∀ (l : List α), (l.map f).Nodup → ∀ x ∈ l,
      (l.filter q).countP (fun y => f y == f x) = if q x then 1 else 0 := by
  intro l
  induction l with
  | nil => intro _ x hx; exact absurd hx (List.not_mem_nil x)
  | cons a t ih =>
      intro hnd x hx
      rw [List.map_cons, List.nodup_cons] at hnd
      obtain ⟨hfa, hndt⟩ := hnd
      have hzero_t : ∀ s : List α, (∀ y ∈ s, y ∈ t) →
          s.countP (fun y => f y == f a) = 0 := by
        intro s hs
        rw [List.countP_eq_zero]
        intro y hy
        simp only [beq_iff_eq]
        intro hee
        exact hfa (hee ▸ List.mem_map_of_mem f (hs y hy))
      rcases List.mem_cons.1 hx with hxa | hxt
      · subst hxa
        rw [List.filter_cons]
        by_cases hq : q x = true
        · rw [if_pos hq, List.countP_cons]
          rw [hzero_t (t.filter q) (fun y hy => (List.mem_filter.1 hy).1)]
          simp [hq]
        · rw [if_neg hq]
          rw [hzero_t (t.filter q) (fun y hy => (List.mem_filter.1 hy).1)]
          simp [hq]
      · have hne : (f a == f x) = false := by
          simp only [beq_eq_false_iff_ne, ne_eq]
          intro hee
          exact hfa (hee ▸ List.mem_map_of_mem f hxt)
        rw [List.filter_cons]
        by_cases hq : q a = true
        · rw [if_pos hq, List.countP_cons, hne]
          simp [ih hndt x hxt]
        · rw [if_neg hq]
          exact ih hndt x hxt

/-- Each idle episode of at least the threshold duration is counted
exactly once among the idle violations, and each shorter episode zero
times. -/
theorem idle_countP (ith : Int) (sf : ℚ) (pings : List GPSPing)
    (hnd : (pings.map GPSPing.t).Nodup) (g : GPSPing × List GPSPing)
    (hg : g ∈ idleRuns sf pings) :
    (idleViolations ith sf pings).countP (fun v => v.t == g.1.t)
      = if ith ≤ runDuration g then 1 else 0 := by
  have hanch : ((idleRuns sf pings).map (fun g' => g'.1.t)).Nodup := by
    have h1 : ((idleRuns sf pings).map (fun g' => g'.1.t))
        = (((idleRuns sf pings).map (fun g' => g'.1)).map GPSPing.t) := by
      rw [List.map_map]
      rfl
    rw [h1]
    exact ((idleRuns_anchors_sublist sf pings).map GPSPing.t).nodup hnd
  unfold idleViolations
  rw [List.countP_map]
  have key := countP_key_filter (fun g' : GPSPing × List GPSPing => g'.1.t)
    (fun g' => decide (ith ≤ runDuration g')) (idleRuns sf pings) hanch g hg
  have hconv : (if decide (ith ≤ runDuration g) = true then 1 else 0)
      = (if ith ≤ runDuration g then 1 else 0) := by
    simp only [decide_eq_true_eq]
  rw [← hconv]
  exact key

/-- C7: scanning a vehicle's pings in timestamp order (distinct
timestamps), a maximal idle run shorter than the threshold yields no
idle_abuse violation, a run lasting at least the threshold yields exactly
one, and two idle stretches separated by a movement ping are two separate
episodes, never merged. -/
theorem claim_C7_idle_episodes (ith : Int) (sf : ℚ) (pings : List GPSPing)
    (hnd : (pings.map GPSPing.t).Nodup) :
    (∀ g ∈ idleRuns sf pings, runDuration g < ith →
        (idleViolations ith sf pings).countP (fun v => v.t == g.1.t) = 0)
      ∧ (∀ g ∈ idleRuns sf pings, ith ≤ runDuration g →
        (idleViolations ith sf pings).countP (fun v => v.t == g.1.t) = 1)
      ∧ (∀ (a : List GPSPing) (m : GPSPing) (b : List GPSPing),
          pings = a ++ m :: b → (∀ x ∈ a, isIdle sf x = true) →
          isIdle sf m = false → (∀ x ∈ b, isIdle sf x = true) →
          ∀ (hna : a ≠ []) (hnb : b ≠ []),
            idleRuns sf pings = [(a.head hna, a.tail), (b.head hnb, b.tail)]) := by
  refine ⟨?_, ?_, ?_⟩
  · intro g hg hdur
    rw [idle_countP ith sf pings hnd g hg, if_neg (not_le.2 hdur)]
  · intro g hg hdur
    rw [idle_countP ith sf pings hnd g hg, if_pos hdur]
  · intro a m b hsplit ha hm hb hna hnb
    rw [hsplit]
    exact idleRuns_split sf a m b ha hm hb hna hnb

/-- C7 witness: an idle run of 12 minutes (threshold 10) produces exactly
one violation, the later 0-minute idle run none, with a movement ping in
between keeping them separate. -/
theorem claim_C7_witness :
    (idleViolations 10 1
        [{ veh := "V1", t := 0, loc := { lat := 0, lon := 0 }, speed := some 0 },
         { veh := "V1", t := 12, loc := { lat := 0, lon := 0 }, speed := some 0 },
         { veh := "V1", t := 20, loc := { lat := 0, lon := 0 }, speed := some 30 },
         { veh := "V1", t := 30, loc := { lat := 0, lon := 0 }, speed := some 0 }]).countP
        (fun v => v.t == (0 : Int)) = 1
      ∧ (idleViolations 10 1
        [{ veh := "V1", t := 0, loc := { lat := 0, lon := 0 }, speed := some 0 },
         { veh := "V1", t := 12, loc := { lat := 0, lon := 0 }, speed := some 0 },
         { veh := "V1", t := 20, loc := { lat := 0, lon := 0 }, speed := some 30 },
         { veh := "V1", t := 30, loc := { lat := 0, lon := 0 }, speed := some 0 }]).countP
        (fun v => v.t == (30 : Int)) = 0 := by
  have h := claim_C7_idle_episodes 10 1
    [{ veh := "V1", t := 0, loc := { lat := 0, lon := 0 }, speed := some 0 },
     { veh := "V1", t := 12, loc := { lat := 0, lon := 0 }, speed := some 0 },
     { veh := "V1", t := 20, loc := { lat := 0, lon := 0 }, speed := some 30 },
     { veh := "V1", t := 30, loc := { lat := 0, lon := 0 }, speed := some 0 }]
    (by decide)
  have hsplit := h.2.2
    [{ veh := "V1", t := 0, loc := { lat := 0, lon := 0 }, speed := some 0 },
     { veh := "V1", t := 12, loc := { lat := 0, lon := 0 }, speed := some 0 }]
    { veh := "V1", t := 20, loc := { lat := 0, lon := 0 }, speed := some 30 }
    [{ veh := "V1", t := 30, loc := { lat := 0, lon := 0 }, speed := some 0 }]
    rfl (by decide) (by decide) (by decide) (by simp) (by simp)
  constructor
  · exact h.2.1
      ({ veh := "V1", t := 0, loc := { lat := 0, lon := 0 }, speed := some 0 },
        [{ veh := "V1", t := 12, loc := { lat := 0, lon := 0 }, speed := some 0 }])
      (by rw [hsplit]; simp) (by decide)
  · exact h.1
      ({ veh := "V1", t := 30, loc := { lat := 0, lon := 0 }, speed := some 0 },
        ([] : List GPSPing))
      (by rw [hsplit]; simp) (by decide)

/-- The first element surviving dropWhile fails the predicate. -/
theorem dropWhile_head_not {α : Type} (p : α → Bool) :
    ∀ (l : List α) (x : α) (xs : List α), l.dropWhile p = x :: xs → p x = false := by
  intro l
  induction l with
  | nil => intro x xs h; exact absurd h (by simp)
  | cons a t ih =>
      intro x xs h
      rw [List.dropWhile_cons] at h
      by_cases hp : p a = true
      · rw [if_pos hp] at h
        exact ih x xs h
      · rw [if_neg hp] at h
        cases h
        exact Bool.eq_false_iff.2 hp

/-- Every member of a window group comes from the grouped list. -/
theorem chunk_mem_sub (w : Int) :
    ∀ (l : List Violation) (g : Violation × List Violation),
      g ∈ chunkWindow w l → g.1 ∈ l ∧ ∀ x ∈ g.2, x ∈ l := by
  have H : ∀ (n : Nat) (l : List Violation), l.length ≤ n →
      ∀ g ∈ chunkWindow w l, g.1 ∈ l ∧ ∀ x ∈ g.2, x ∈ l := by
    intro n
    induction n with
    | zero =>
        intro l hl
        rw [List.length_eq_zero.1 (Nat.le_zero.1 hl)]
        rw [chunkWindow]
        intro g hg
        exact absurd hg (List.not_mem_nil g)
    | succ n ih =>
        intro l hl
        cases l with
        | nil =>
            rw [chunkWindow]
            intro g hg
            exact absurd hg (List.not_mem_nil g)
        | cons v rest =>
            simp only [List.length_cons, Nat.succ_le_succ_iff] at hl
            rw [chunkWindow]
            intro g hg
            rcases List.mem_cons.1 hg with hgh | hgt
            · subst hgh
              refine ⟨by simp, fun x hx => ?_⟩
              exact List.mem_cons_of_mem v ((List.takeWhile_sublist _).subset hx)
            · have h1 := ih (rest.dropWhile (fun x => x.t ≤ v.t + w))
                (le_trans (List.dropWhile_sublist _).length_le hl) g hgt
              exact ⟨List.mem_cons_of_mem v ((List.dropWhile_sublist _).subset h1.1),
                fun x hx => List.mem_cons_of_mem v
                  ((List.dropWhile_sublist _).subset (h1.2 x hx))⟩
  exact fun l => H l.length l le_rfl

/-- The group anchors form a subsequence of the grouped list. -/
theorem chunk_anchors_sublist (w : Int) :
    ∀ l : List Violation,
      ((chunkWindow w l).map (fun g => g.1)).Sublist l := by
  have H : ∀ (n : Nat) (l : List Violation), l.length ≤ n →
      ((chunkWindow w l).map (fun g => g.1)).Sublist l := by
    intro n
    induction n with
    | zero =>
        intro l hl
        rw [List.length_eq_zero.1 (Nat.le_zero.1 hl)]
        rw [chunkWindow]
        simp
    | succ n ih =>
        intro l hl
        cases l with
        | nil => rw [chunkWindow]; simp
        | cons v rest =>
            simp only [List.length_cons, Nat.succ_le_succ_iff] at hl
            rw [chunkWindow, List.map_cons]
            have h1 := ih (rest.dropWhile (fun x => x.t ≤ v.t + w))
              (le_trans (List.dropWhile_sublist _).length_le hl)
            exact (h1.trans (rest.dropWhile_sublist _)).cons₂ v
  exact fun l => H l.length l le_rfl

/-- On a timestamp-sorted list, consecutive group anchors are separated
by more than the window. -/
theorem chunk_anchor_chain (w : Int) :
    ∀ l : List Violation, l.Pairwise vtle →
      List.Chain' (fun g h : Violation × List Violation => g.1.t + w < h.1.t)
        (chunkWindow w l) := by
  have H : ∀ (n : Nat) (l : List Violation), l.length ≤ n → l.Pairwise vtle →
      List.Chain' (fun g h : Violation × List Violation => g.1.t + w < h.1.t)
        (chunkWindow w l) := by
    intro n
    induction n with
    | zero =>
        intro l hl _
        rw [List.length_eq_zero.1 (Nat.le_zero.1 hl)]
        rw [chunkWindow]
        exact List.chain'_nil
    | succ n ih =>
        intro l hl hp
        cases l with
        | nil => rw [chunkWindow]; exact List.chain'_nil
        | cons v rest =>
            simp only [List.length_cons, Nat.succ_le_succ_iff] at hl
            rw [chunkWindow]
            apply List.chain'_cons'.2
            constructor
            · intro h hh
              cases hrest : rest.dropWhile (fun x => x.t ≤ v.t + w) with
              | nil => rw [hrest, chunkWindow] at hh; exact absurd hh (by simp)
              | cons x xs =>
                  rw [hrest, chunkWindow] at hh
                  have hx := dropWhile_head_not _ rest x xs hrest
                  simp only [List.head?_cons, Option.mem_def, Option.some.injEq] at hh
                  rw [← hh]
                  simp only [decide_eq_false_iff_not, not_le] at hx
                  exact hx
            · apply ih (rest.dropWhile (fun x => x.t ≤ v.t + w))
                (le_trans (List.dropWhile_sublist _).length_le hl)
              exact (List.pairwise_cons.1 hp).2.sublist (List.dropWhile_sublist _)
  exact fun l => H l.length l le_rfl

/-- A list whose consecutive timestamps are separated by more than the
window is grouped into singletons. -/
theorem chunk_of_chain (w : Int) :
    ∀ l : List Violation,
      List.Chain' (fun a b : Violation => a.t + w < b.t) l →
      chunkWindow w l = l.map (fun v => (v, ([] : List Violation))) := by
  have H : ∀ (n : Nat) (l : List Violation), l.length ≤ n →
      List.Chain' (fun a b : Violation => a.t + w < b.t) l →
      chunkWindow w l = l.map (fun v => (v, ([] : List Violation))) := by
    intro n
    induction n with
    | zero =>
        intro l hl _
        rw [List.length_eq_zero.1 (Nat.le_zero.1 hl)]
        rw [chunkWindow]
        rfl
    | succ n ih =>
        intro l hl hc
        cases l with
        | nil => rw [chunkWindow]; rfl
        | cons v rest =>
            simp only [List.length_cons, Nat.succ_le_succ_iff] at hl
            rw [chunkWindow]
            cases rest with
            | nil =>
                rw [List.takeWhile_nil, List.dropWhile_nil, chunkWindow]
                rfl
            | cons x xs =>
                obtain ⟨hvx, hcx⟩ := List.chain'_cons.1 hc
                have hpx : (fun y : Violation => decide (y.t ≤ v.t + w)) x = false := by
                  simp only [decide_eq_false_iff_not, not_le]
                  exact hvx
                rw [List.takeWhile_cons, List.dropWhile_cons]
                simp only [hpx, Bool.false_eq_true, ite_false]
                rw [ih (x :: xs) hl hcx]
                rfl
  exact fun l => H l.length l le_rfl

/-- The merged incident keeps the anchor's vehicle. -/
theorem mergeGroup_veh (v : Violation) (vs : List Violation) :
    (mergeGroup v vs).veh = v.veh := rfl

/-- The merged incident keeps the anchor's timestamp. -/
theorem mergeGroup_t (v : Violation) (vs : List Violation) :
    (mergeGroup v vs).t = v.t := rfl

/-- The merged confidence is capped at 1. -/
theorem mergeGroup_conf_le (v : Violation) (vs : List Violation) :
    (mergeGroup v vs).conf ≤ 1 := min_le_left _ _

/-- The merged method union carries no duplicates. -/
theorem mergeGroup_methods_nodup (v : Violation) (vs : List Violation) :
    (mergeGroup v vs).methods.Nodup := List.nodup_dedup _

/-- Merging a single already-capped incident with deduplicated methods
changes nothing. -/
theorem mergeGroup_singleton (x : Violation) (h1 : x.conf ≤ 1)
    (h2 : x.methods.Nodup) : mergeGroup x [] = x := by
  cases x with
  | mk xv xt xs xc xl xm xd =>
      have h2m : xm.Nodup := h2
      have hded : xm.dedup = xm := List.dedup_eq_self.2 h2m
      unfold mergeGroup bestOf
      simp only [List.foldl_nil, List.flatMap_cons, List.flatMap_nil,
        List.append_nil, hded]
      have hfil : xm.filter (fun m => !(xm.contains m)) = [] := by
        rw [List.filter_eq_nil_iff]
        intro m hm
        simp [hm]
      rw [hfil]
      simp only [List.length_nil, Nat.cast_zero, mul_zero, add_zero]
      rw [min_eq_right h1]

/-- The severity fold dominates the accumulator and every element. -/
theorem sevFold_ub (vs : List Violation) : ∀ a : Severity,
    a.rank ≤ (vs.foldl (fun s x => sevMax s x.sev) a).rank
      ∧ ∀ x ∈ vs, x.sev.rank ≤ (vs.foldl (fun s x => sevMax s x.sev) a).rank := by
  induction vs with
  | nil => intro a; exact ⟨le_rfl, by simp⟩
  | cons y ys ih =>
      intro a
      rw [List.foldl_cons]
      have h1 : a.rank ≤ (sevMax a y.sev).rank := by
        unfold sevMax
        split_ifs with h
        · exact le_rfl
        · exact Nat.le_of_lt (Nat.lt_of_not_le h)
      have h2 : y.sev.rank ≤ (sevMax a y.sev).rank := by
        unfold sevMax
        split_ifs with h
        · exact h
        · exact le_rfl
      obtain ⟨ha, hmem⟩ := ih (sevMax a y.sev)
      refine ⟨le_trans h1 ha, ?_⟩
      intro x hx
      rcases List.mem_cons.1 hx with hxy | hxs
      · rw [hxy]; exact le_trans h2 ha
      · exact hmem x hxs

/-- The severity fold lands on the accumulator or on an element. -/
theorem sevFold_mem (vs : List Violation) : ∀ a : Severity,
    vs.foldl (fun s x => sevMax s x.sev) a = a
      ∨ vs.foldl (fun s x => sevMax s x.sev) a ∈ vs.map Violation.sev := by
  induction vs with
  | nil => intro a; exact Or.inl rfl
  | cons y ys ih =>
      intro a
      rw [List.foldl_cons, List.map_cons]
      have hcase : sevMax a y.sev = a ∨ sevMax a y.sev = y.sev := by
        unfold sevMax
        split_ifs
        · exact Or.inl rfl
        · exact Or.inr rfl
      rcases ih (sevMax a y.sev) with h | h
      · rw [h]
        rcases hcase with hc | hc
        · exact Or.inl hc
        · refine Or.inr ?_
          rw [hc]
          exact List.mem_cons_self _ _
      · exact Or.inr (List.mem_cons_of_mem _ h)

/-- The loss fold dominates the accumulator and every element. -/
theorem lossFold_ub (vs : List Violation) : ∀ a : ℚ,
    a ≤ vs.foldl (fun s x => max s x.loss) a
      ∧ ∀ x ∈ vs, x.loss ≤ vs.foldl (fun s x => max s x.loss) a := by
  induction vs with
  | nil => intro a; exact ⟨le_rfl, by simp⟩
  | cons y ys ih =>
      intro a
      rw [List.foldl_cons]
      obtain ⟨ha, hmem⟩ := ih (max a y.loss)
      refine ⟨le_trans (le_max_left a y.loss) ha, ?_⟩
      intro x hx
      rcases List.mem_cons.1 hx with hxy | hxs
      · rw [hxy]; exact le_trans (le_max_right a y.loss) ha
      · exact hmem x hxs

/-- The loss fold lands on the accumulator or on an element. -/
theorem lossFold_mem (vs : List Violation) : ∀ a : ℚ,
    vs.foldl (fun s x => max s x.loss) a = a
      ∨ vs.foldl (fun s x => max s x.loss) a ∈ vs.map Violation.loss := by
  induction vs with
  | nil => intro a; exact Or.inl rfl
  | cons y ys ih =>
      intro a
      rw [List.foldl_cons, List.map_cons]
      rcases ih (max a y.loss) with h | h
      · rw [h]
        rcases max_choice a y.loss with hc | hc
        · exact Or.inl hc
        · refine Or.inr ?_
          rw [hc]
          exact List.mem_cons_self _ _
      · exact Or.inr (List.mem_cons_of_mem _ h)

/-- The member of maximal confidence belongs to the group and dominates
every member's confidence. -/
theorem bestOf_spec (vs : List Violation) : ∀ v : Violation,
    bestOf v vs ∈ v :: vs ∧ v.conf ≤ (bestOf v vs).conf
      ∧ ∀ x ∈ vs, x.conf ≤ (bestOf v vs).conf := by
  induction vs with
  | nil => intro v; exact ⟨by simp [bestOf], le_rfl, by simp⟩
  | cons y ys ih =>
      intro v
      have hrec : bestOf v (y :: ys) = bestOf (if v.conf < y.conf then y else v) ys :=
        rfl
      obtain ⟨hmem, hconf, hall⟩ := ih (if v.conf < y.conf then y else v)
      have hv'mem : (if v.conf < y.conf then y else v) = v
          ∨ (if v.conf < y.conf then y else v) = y := by
        split_ifs
        · exact Or.inr rfl
        · exact Or.inl rfl
      have hvle : v.conf ≤ (if v.conf < y.conf then y else v).conf := by
        split_ifs with h
        · exact le_of_lt h
        · exact le_rfl
      have hyle : y.conf ≤ (if v.conf < y.conf then y else v).conf := by
        split_ifs with h
        · exact le_rfl
        · exact le_of_not_lt h
      refine ⟨?_, le_trans hvle hconf, ?_⟩
      · rw [hrec]
        rcases List.mem_cons.1 hmem with h | h
        · rcases hv'mem with hc | hc
          · rw [h, hc]; exact List.mem_cons_self _ _
          · rw [h, hc]; exact List.mem_cons_of_mem _ (List.mem_cons_self _ _)
        · exact List.mem_cons_of_mem _ (List.mem_cons_of_mem _ h)
      · intro x hx
        rw [hrec]
        rcases List.mem_cons.1 hx with hxy | hxs
        · rw [hxy]; exact le_trans hyle hconf
        · exact hall x hxs

/-- Every incident of a vehicle block carries that vehicle id. -/
theorem consGroupsOf_veh (w : Int) (vs : List Violation) (id : String) :
    ∀ inc ∈ consGroupsOf w vs id, inc.veh = id := by
  intro inc hinc
  unfold consGroupsOf at hinc
  obtain ⟨g, hg, hmg⟩ := List.mem_map.1 hinc
  have h1 := (chunk_mem_sub w _ g hg).1
  have h2 : g.1 ∈ vs.filter (fun v => v.veh == id) :=
    (List.perm_insertionSort vtle _).mem_iff.1 h1
  have h3 := (List.mem_filter.1 h2).2
  rw [← hmg, mergeGroup_veh]
  exact eq_of_beq h3

/-- A vehicle that appears among the violations gets a nonempty block. -/
theorem consGroupsOf_ne_nil (w : Int) (vs : List Violation) (id : String)
    (h : id ∈ (vs.map Violation.veh).dedup) : consGroupsOf w vs id ≠ [] := by
  obtain ⟨v, hv, hveq⟩ := List.mem_map.1 (List.mem_dedup.1 h)
  have hvf : v ∈ vs.filter (fun v => v.veh == id) :=
    List.mem_filter.2 ⟨hv, by simp [hveq]⟩
  have hs : v ∈ sortT (vs.filter (fun v => v.veh == id)) :=
    (List.perm_insertionSort vtle _).mem_iff.2 hvf
  unfold consGroupsOf
  intro hnil
  cases hsrt : sortT (vs.filter (fun v => v.veh == id)) with
  | nil => rw [hsrt] at hs; exact absurd hs (List.not_mem_nil v)
  | cons a as =>
      rw [show sortT (vs.filter (fun v => v.veh == id))
          = a :: as from hsrt, chunkWindow] at hnil
      exact absurd hnil (by simp)

/-- Filtering a concatenation of per-vehicle blocks by one vehicle id
recovers exactly that vehicle's block. -/
theorem flatMap_filter_key (f : String → List Violation) :
    ∀ ids : List String, ids.Nodup →
      (∀ id ∈ ids, ∀ x ∈ f id, x.veh = id) →
      ∀ id' ∈ ids, (ids.flatMap f).filter (fun v => v.veh == id') = f id' := by
  intro ids
  induction ids with
  | nil => intro _ _ id' h; exact absurd h (List.not_mem_nil id')
  | cons a rest ih =>
      intro hnd hf id' hid'
      rw [List.flatMap_cons, List.filter_append]
      rw [List.nodup_cons] at hnd
      rcases List.mem_cons.1 hid' with h | h
      · subst h
        have hfa : (f id').filter (fun v => v.veh == id') = f id' :=
          List.filter_eq_self.2 (fun x hx => by
            simp [hf id' (by simp) x hx])
        have hrest : (rest.flatMap f).filter (fun v => v.veh == id') = [] := by
          rw [List.filter_eq_nil_iff]
          intro x hx
          obtain ⟨id2, hid2, hxid2⟩ := List.mem_flatMap.1 hx
          have hxv := hf id2 (by simp [hid2]) x hxid2
          simp only [hxv, beq_iff_eq]
          intro heq
          rw [heq] at hid2
          exact hnd.1 hid2
        rw [hfa, hrest, List.append_nil]
      · have ha : (f a).filter (fun v => v.veh == id') = [] := by
          rw [List.filter_eq_nil_iff]
          intro x hx
          have hxv := hf a (by simp) x hx
          simp only [hxv, beq_iff_eq]
          intro heq
          rw [← heq] at h
          exact hnd.1 h
        rw [ha, List.nil_append]
        exact ih hnd.2 (fun id hid x hx => hf id (by simp [hid]) x hx) id' h

/-- Deduplicating a nonempty constant block followed by a list avoiding
the constant keeps one copy of the constant. -/
theorem dedup_const_block (a : String) :
    ∀ blk : List String, blk ≠ [] → (∀ x ∈ blk, x = a) →
      ∀ rest : List String, a ∉ rest → (blk ++ rest).dedup = a :: rest.dedup := by
  intro blk
  induction blk with
  | nil => intro h; exact absurd rfl h
  | cons b bs ih =>
      intro _ hall rest hanr
      have hb : b = a := hall b (by simp)
      subst hb
      cases bs with
      | nil =>
          rw [List.cons_append, List.nil_append]
          exact List.dedup_cons_of_not_mem hanr
      | cons c cs =>
          have hc : c = b := hall c (by simp)
          rw [List.cons_append]
          have hmem : b ∈ (c :: cs) ++ rest := by
            rw [List.cons_append]
            rw [hc]
            exact List.mem_cons_self _ _
          rw [List.dedup_cons_of_mem hmem]
          exact ih (by simp) (fun x hx => hall x (by simp [hx])) rest hanr

/-- The vehicles of a concatenation of nonempty per-vehicle blocks,
deduplicated, are the block ids. -/
theorem dedup_flatMap_key (f : String → List Violation) :
    ∀ ids : List String, ids.Nodup →
      (∀ id ∈ ids, ∀ x ∈ f id, x.veh = id) →
      (∀ id ∈ ids, f id ≠ []) →
      ((ids.flatMap f).map Violation.veh).dedup = ids := by
  intro ids
  induction ids with
  | nil => intro _ _ _; rfl
  | cons a rest ih =>
      intro hnd hf hne
      rw [List.flatMap_cons, List.map_append]
      have hblk : ∀ x ∈ (f a).map Violation.veh, x = a := by
        intro x hx
        obtain ⟨y, hy, hxy⟩ := List.mem_map.1 hx
        rw [← hxy]
        exact hf a (by simp) y hy
      have hblkne : (f a).map Violation.veh ≠ [] := by
        intro hnil
        exact hne a (by simp) (List.map_eq_nil_iff.1 hnil)
      have hanr : a ∉ (rest.flatMap f).map Violation.veh := by
        intro hmem
        obtain ⟨y, hy, hya⟩ := List.mem_map.1 hmem
        obtain ⟨id2, hid2, hyid2⟩ := List.mem_flatMap.1 hy
        have hyv := hf id2 (by simp [hid2]) y hyid2
        rw [hyv] at hya
        rw [hya] at hid2
        exact (List.nodup_cons.1 hnd).1 hid2
      rw [dedup_const_block a _ hblkne hblk _ hanr]
      rw [ih (List.nodup_cons.1 hnd).2
        (fun id hid x hx => hf id (by simp [hid]) x hx)
        (fun id hid => hne id (by simp [hid]))]

/-- Pointwise-equal functions flat-map equally. -/
theorem flatMap_congr_mem {α β : Type} :
    ∀ (l : List α) (f g : α → List β), (∀ x ∈ l, f x = g x) →
      l.flatMap f = l.flatMap g := by
  intro l
  induction l with
  | nil => intro f g _; rfl
  | cons a t ih =>
      intro f g h
      rw [List.flatMap_cons, List.flatMap_cons, h a (by simp),
        ih f g (fun x hx => h x (by simp [hx]))]

/-- Mapping a function that fixes every member is the identity. -/
theorem map_id_of_mem {α : Type} :
    ∀ (l : List α) (f : α → α), (∀ x ∈ l, f x = x) → l.map f = l := by
  intro l
  induction l with
  | nil => intro f _; rfl
  | cons a t ih =>
      intro f h
      rw [List.map_cons, h a (by simp), ih f (fun x hx => h x (by simp [hx]))]

/-- Re-consolidating one vehicle's already-consolidated block changes
nothing: the block is sorted, its incidents are separated by more than
the window, and re-merging a singleton group is the identity. -/
theorem consGroupsOf_fix (w : Int) (vs : List Violation) (id : String)
    (hid : id ∈ (vs.map Violation.veh).dedup) :
    consGroupsOf w (consolidate w vs) id = consGroupsOf w vs id := by
  have hfil : (consolidate w vs).filter (fun v => v.veh == id)
      = consGroupsOf w vs id := by
    unfold consolidate
    exact flatMap_filter_key (consGroupsOf w vs) ((vs.map Violation.veh).dedup)
      (List.nodup_dedup _) (fun id2 _ => consGroupsOf_veh w vs id2) id hid
  have hLsorted : (sortT (vs.filter (fun v => v.veh == id))).Pairwise vtle :=
    List.sorted_insertionSort vtle _
  have hanch : List.Pairwise vtle
      ((chunkWindow w (sortT (vs.filter (fun v => v.veh == id)))).map
        (fun g => g.1)) :=
    hLsorted.sublist (chunk_anchors_sublist w _)
  have hJsorted : (consGroupsOf w vs id).Pairwise vtle := by
    unfold consGroupsOf
    rw [List.pairwise_map]
    refine (List.pairwise_map.1 hanch).imp ?_
    intro g h hgh
    show (mergeGroup g.1 g.2).t ≤ (mergeGroup h.1 h.2).t
    rw [mergeGroup_t, mergeGroup_t]
    exact hgh
  have hchainJ : List.Chain' (fun a b : Violation => a.t + w < b.t)
      (consGroupsOf w vs id) := by
    unfold consGroupsOf
    rw [List.chain'_map]
    refine (chunk_anchor_chain w _ hLsorted).imp ?_
    intro g h hgh
    show (mergeGroup g.1 g.2).t + w < (mergeGroup h.1 h.2).t
    rw [mergeGroup_t, mergeGroup_t]
    exact hgh
  have hsortJ : sortT (consGroupsOf w vs id) = consGroupsOf w vs id :=
    List.Sorted.insertionSort_eq hJsorted
  have hchunkJ : chunkWindow w (consGroupsOf w vs id)
      = (consGroupsOf w vs id).map (fun v => (v, ([] : List Violation))) :=
    chunk_of_chain w _ hchainJ
  have hsing : ((consGroupsOf w vs id).map
        (fun v => (v, ([] : List Violation)))).map
      (fun g => mergeGroup g.1 g.2) = consGroupsOf w vs id := by
    rw [List.map_map]
    apply map_id_of_mem
    intro x hx
    show mergeGroup x [] = x
    unfold consGroupsOf at hx
    obtain ⟨g, _, hmg⟩ := List.mem_map.1 hx
    rw [← hmg]
    exact mergeGroup_singleton _ (mergeGroup_conf_le g.1 g.2)
      (mergeGroup_methods_nodup g.1 g.2)
  calc consGroupsOf w (consolidate w vs) id
      = (chunkWindow w (sortT ((consolidate w vs).filter
          (fun v => v.veh == id)))).map (fun g => mergeGroup g.1 g.2) := rfl
    _ = (chunkWindow w (sortT (consGroupsOf w vs id))).map
          (fun g => mergeGroup g.1 g.2) := by rw [hfil]
    _ = (chunkWindow w (consGroupsOf w vs id)).map
          (fun g => mergeGroup g.1 g.2) := by rw [hsortJ]
    _ = ((consGroupsOf w vs id).map (fun v => (v, ([] : List Violation)))).map
          (fun g => mergeGroup g.1 g.2) := by rw [hchunkJ]
    _ = consGroupsOf w vs id := hsing

/-- C9: the Consolidator is idempotent — consolidating its own output
yields the same incident list. -/
theorem claim_C9_idempotent (w : Int) (vs : List Violation) :
    consolidate w (consolidate w vs) = consolidate w vs := by
  have hids : ((consolidate w vs).map Violation.veh).dedup
      = (vs.map Violation.veh).dedup := by
    unfold consolidate
    exact dedup_flatMap_key (consGroupsOf w vs) _ (List.nodup_dedup _)
      (fun id _ => consGroupsOf_veh w vs id)
      (fun id hid => consGroupsOf_ne_nil w vs id hid)
  conv_lhs => rw [consolidate]
  rw [hids]
  rw [flatMap_congr_mem _ _ (consGroupsOf w vs)
    (fun id hid => consGroupsOf_fix w vs id hid)]
  rfl

/-- C1: a group of raw violations merged into one consolidated incident
gets the maximum severity among the members, the maximum (never the
summed) estimated loss, and the maximum member confidence boosted by the
fixed amount per additional distinct detection method, capped at 1; and
every incident the Consolidator outputs is such a merge of input
violations. -/
theorem claim_C1_merge_rule (v : Violation) (vs : List Violation)
    (hm : ∀ x ∈ v :: vs, x.methods.length = 1) :
    (∀ x ∈ v :: vs, x.sev.rank ≤ (mergeGroup v vs).sev.rank)
      ∧ (mergeGroup v vs).sev ∈ (v :: vs).map Violation.sev
      ∧ (∀ x ∈ v :: vs, x.loss ≤ (mergeGroup v vs).loss)
      ∧ (mergeGroup v vs).loss ∈ (v :: vs).map Violation.loss
      ∧ (∃ b ∈ v :: vs, (∀ x ∈ v :: vs, x.conf ≤ b.conf)
          ∧ (mergeGroup v vs).conf
            = min 1 (b.conf + boost
                * ((((v :: vs).flatMap Violation.methods).dedup.length : ℚ) - 1)))
      ∧ (∀ (w : Int) (inp : List Violation) (inc : Violation),
          inc ∈ consolidate w inp →
          ∃ g1 g2, inc = mergeGroup g1 g2 ∧ g1 ∈ inp ∧ ∀ x ∈ g2, x ∈ inp) := by
  refine ⟨?_, ?_, ?_, ?_, ?_, ?_⟩
  · intro x hx
    show x.sev.rank ≤ (vs.foldl (fun s x => sevMax s x.sev) v.sev).rank
    rcases List.mem_cons.1 hx with hxv | hxs
    · rw [hxv]; exact (sevFold_ub vs v.sev).1
    · exact (sevFold_ub vs v.sev).2 x hxs
  · show vs.foldl (fun s x => sevMax s x.sev) v.sev ∈ (v :: vs).map Violation.sev
    rw [List.map_cons]
    rcases sevFold_mem vs v.sev with h | h
    · rw [h]; exact List.mem_cons_self _ _
    · exact List.mem_cons_of_mem _ h
  · intro x hx
    show x.loss ≤ vs.foldl (fun s x => max s x.loss) v.loss
    rcases List.mem_cons.1 hx with hxv | hxs
    · rw [hxv]; exact (lossFold_ub vs v.loss).1
    · exact (lossFold_ub vs v.loss).2 x hxs
  · show vs.foldl (fun s x => max s x.loss) v.loss ∈ (v :: vs).map Violation.loss
    rw [List.map_cons]
    rcases lossFold_mem vs v.loss with h | h
    · rw [h]; exact List.mem_cons_self _ _
    · exact List.mem_cons_of_mem _ h
  · obtain ⟨hbmem, hvle, hall⟩ := bestOf_spec vs v
    refine ⟨bestOf v vs, hbmem, ?_, ?_⟩
    · intro x hx
      rcases List.mem_cons.1 hx with hxv | hxs
      · rw [hxv]; exact hvle
      · exact hall x hxs
    · obtain ⟨mb, hmb⟩ := List.length_eq_one.1 (hm _ hbmem)
      have hmbm : mb ∈ ((v :: vs).flatMap Violation.methods).dedup := by
        rw [List.mem_dedup, List.mem_flatMap]
        exact ⟨bestOf v vs, hbmem, by rw [hmb]; simp⟩
      have hfe : (((v :: vs).flatMap Violation.methods).dedup).filter
            (fun m => !((bestOf v vs).methods.contains m))
          = (((v :: vs).flatMap Violation.methods).dedup).filter
            (fun m => m != mb) := by
        apply List.filter_congr
        intro m _
        rw [hmb]
        by_cases hmmb : m = mb
        · simp [hmmb]
        · simp [hmmb]
      have hfe2 : (((v :: vs).flatMap Violation.methods).dedup).filter
            (fun m => m != mb)
          = (((v :: vs).flatMap Violation.methods).dedup).erase mb :=
        ((List.nodup_dedup _).erase_eq_filter mb).symm
      have hlen : ((((v :: vs).flatMap Violation.methods).dedup).filter
            (fun m => !((bestOf v vs).methods.contains m))).length
          = (((v :: vs).flatMap Violation.methods).dedup).length - 1 := by
        rw [hfe, hfe2, List.length_erase_of_mem hmbm]
      show min 1 ((bestOf v vs).conf + boost
            * (((((v :: vs).flatMap Violation.methods).dedup).filter
              (fun m => !((bestOf v vs).methods.contains m))).length : ℚ))
          = min 1 ((bestOf v vs).conf + boost
            * (((((v :: vs).flatMap Violation.methods).dedup).length : ℚ) - 1))
      rw [hlen, Nat.cast_sub (List.length_pos_of_mem hmbm), Nat.cast_one]
  · intro w inp inc hinc
    unfold consolidate at hinc
    obtain ⟨id, _, hincid⟩ := List.mem_flatMap.1 hinc
    unfold consGroupsOf at hincid
    obtain ⟨g, hg, hmg⟩ := List.mem_map.1 hincid
    obtain ⟨h1, h2⟩ := chunk_mem_sub w _ g hg
    refine ⟨g.1, g.2, hmg.symm, ?_, ?_⟩
    · exact (List.mem_filter.1 ((List.perm_insertionSort vtle _).mem_iff.1 h1)).1
    · intro x hx
      exact (List.mem_filter.1
        ((List.perm_insertionSort vtle _).mem_iff.1 (h2 x hx))).1

/-- A sample raw fuel-theft violation used to witness the merge rule. -/
def sampleRawA : Violation :=
  { veh := "V1", t := 0, sev := .low, conf := 1/2, loss := 10,
    methods := ["fuel_theft"], descr := "a" }

/-- A sample raw after-hours violation used to witness the merge rule. -/
def sampleRawB : Violation :=
  { veh := "V1", t := 5, sev := .high, conf := 3/5, loss := 7,
    methods := ["after_hours"], descr := "b" }

/-- C1 witness: merging two corroborating raw violations takes the
maximum severity and loss and boosts the best confidence per extra
method. -/
theorem claim_C1_witness :
    (mergeGroup sampleRawA [sampleRawB]).sev
        ∈ ([sampleRawA, sampleRawB].map Violation.sev)
      ∧ (∀ x ∈ sampleRawA :: [sampleRawB],
          x.loss ≤ (mergeGroup sampleRawA [sampleRawB]).loss)
      ∧ ∃ b ∈ sampleRawA :: [sampleRawB],
          (∀ x ∈ sampleRawA :: [sampleRawB], x.conf ≤ b.conf)
            ∧ (mergeGroup sampleRawA [sampleRawB]).conf
              = min 1 (b.conf + boost
                * ((((sampleRawA :: [sampleRawB]).flatMap
                    Violation.methods).dedup.length : ℚ) - 1)) := by
  have h := claim_C1_merge_rule sampleRawA [sampleRawB] (by decide)
  exact ⟨h.2.1, h.2.2.1, h.2.2.2.2.1⟩

end FleetAudit
